import Mathlib

/-!
# lunasvg document tree: property cascade and tree navigation

A shallow embedding of `source/element.cpp` (namespace `lunasvg`).

* `PropertyList` is the class around `std::vector<Property> m_properties`; the vector is a
  `List Property`, and a `Property*` into it is the pair of the position and the pointee.
* `int specificity` is only ever stored and compared, never computed with, so it is an `Int`.
* Nodes live in a heap (`List Node`); a `Node*` / `Element*` is the position of the node in the
  heap and `nullptr` is `none`.  Dereferencing a position outside the heap, or using a text node
  where the code needs an `Element`, has no result (`none`).
* A child sequence owns its nodes (`std::unique_ptr`), and `addChild` takes the owning pointer by
  value.  Child sequences here hold addresses and no empty slots, so `Element.addChild` has a
  result only for a node that no child sequence holds (`Heap.owned`).
* The `while` loop of `Element::find` takes a fuel argument; running out of fuel is `none`.
* The recursion of `Element::nearestViewBox` takes a fuel argument too, one unit for each
  recursive call.  What it uses from outside `element.cpp` (the enumerators, the methods of
  `SVGElement`, the length context) is gathered in the structure `Collaborators`.
-/

namespace lunasvg

/-! ## Data model -/

/-- Modelled from the spec: the enumeration `PropertyId` is declared in `element.h`, which is not
part of the sources at hand.  The code only compares identifiers for equality, so an identifier is
represented by its ordinal. -/
abbrev PropertyId := Nat

/-- Modelled from the spec: the enumeration `ElementId` is declared in `element.h`, which is not
part of the sources at hand.  An identifier is represented by its ordinal. -/
abbrev ElementId := Nat

/-- The constant `EmptyString` of `element.cpp`. -/
def EmptyString : String := ""

/-- The constant `InheritString` of `element.cpp`. -/
def InheritString : String := "inherit"

/-- The struct `Property`, with the fields its constructor initialises. -/
structure Property where
  id : PropertyId
  value : String
  specificity : Int
  deriving DecidableEq, Repr

/-- The class `PropertyList`: its only state is the vector `m_properties`. -/
structure PropertyList where
  m_properties : List Property
  deriving DecidableEq, Repr

/-- A `Property*` into `m_properties`: the position pointed at, and the pointee. -/
abbrev PropertyPtr := Nat × Property

/-- The loop of `PropertyList::get`, entered at position `i` with `rest` the properties from
position `i` on: the first property whose id is `id` is returned. -/
def PropertyList.getLoop (id : PropertyId) : List Property → Nat → Option PropertyPtr
  | [], _ => none
  | property :: rest, i =>
    if property.id = id then some (i, property) else PropertyList.getLoop id rest (i + 1)

/-- The method `PropertyList::get(id)`; `none` is `nullptr`. -/
def PropertyList.get (l : PropertyList) (id : PropertyId) : Option PropertyPtr :=
  PropertyList.getLoop id l.m_properties 0

/-- The method `PropertyList::set(id, value, specificity)`. -/
def PropertyList.set (l : PropertyList) (id : PropertyId) (value : String) (specificity : Int) :
    PropertyList :=
  match l.get id with
  | none => ⟨l.m_properties ++ [⟨id, value, specificity⟩]⟩
  | some (i, property) =>
    if property.specificity > specificity then l
    else ⟨l.m_properties.set i { property with specificity := specificity, value := value }⟩

/-- The method `PropertyList::add(const Property&)`. -/
def PropertyList.add (l : PropertyList) (property : Property) : PropertyList :=
  l.set property.id property.value property.specificity

/-- The method `PropertyList::add(const PropertyList&)`: the loop over the other list, front to
back. -/
def PropertyList.addList (l : PropertyList) (properties : PropertyList) : PropertyList :=
  properties.m_properties.foldl PropertyList.add l

/-! ## Nodes, elements and the heap -/

/-- A `Node*` (or `Element*`): the position of the node in the heap. -/
abbrev Ptr := Nat

/-- Modelled from the spec: the class `TextNode` is declared in `element.h`, which is not part of
the sources at hand.  A text node has the `parent` link of every `Node` and a text payload. -/
structure TextNode where
  parent : Option Ptr
  text : String
  deriving DecidableEq, Repr

/-- Modelled from the spec: the class `Element` is declared in `element.h`, which is not part of
the sources at hand.  An element has the `parent` link of every `Node`, its `id`, its own
`properties` and the sequence `children` of the nodes it owns. -/
structure Element where
  parent : Option Ptr
  id : ElementId
  properties : PropertyList
  children : List Ptr
  deriving DecidableEq, Repr

/-- Modelled from the spec: the abstract class `Node` with its two variants. -/
inductive Node where
  | text (node : TextNode)
  | element (node : Element)
  deriving DecidableEq, Repr

/-- The virtual method `Node::isText()`. -/
def Node.isText : Node → Bool
  | .text _ => true
  | .element _ => false

/-- The field `Node::parent`. -/
def Node.parent : Node → Option Ptr
  | .text t => t.parent
  | .element e => e.parent

/-- The assignment `node->parent = parent`. -/
def Node.setParent (parent : Option Ptr) : Node → Node
  | .text t => .text { t with parent := parent }
  | .element e => .element { e with parent := parent }

/-- The heap: every node of the program, each at its address. -/
abbrev Heap := List Node

/-- Dereference a `Node*`. -/
def Heap.node (h : Heap) (p : Ptr) : Option Node := h[p]?

/-- Dereference an `Element*`. -/
def Heap.element (h : Heap) (p : Ptr) : Option Element :=
  match h.node p with
  | some (.element e) => some e
  | _ => none

/-- The method `Element::set(id, value, specificity)`, on the element itself. -/
def Element.set (e : Element) (id : PropertyId) (value : String) (specificity : Int) : Element :=
  { e with properties := e.properties.set id value specificity }

/-- The method `Element::get(id)`. -/
def Element.get (e : Element) (id : PropertyId) : String :=
  match e.properties.get id with
  | none => EmptyString
  | some (_, property) => property.value

/-- The method `Element::has(id)`. -/
def Element.has (e : Element) (id : PropertyId) : Bool :=
  (e.properties.get id).isSome

/-- The `while(element)` loop of `Element::find`, entered with the pointer `element`; one unit of
fuel is spent on each element inspected. -/
def Element.findLoop (h : Heap) (id : PropertyId) : Nat → Option Ptr → Option String
  | _, none => some EmptyString
  | 0, some _ => none
  | fuel + 1, some element =>
    match h.element element with
    | none => none
    | some e =>
      let value := e.get id
      if value ≠ "" ∧ value ≠ InheritString then some value
      else Element.findLoop h id fuel e.parent

/-- The method `Element::find(id)` called on the element at `this`. -/
def Element.find (h : Heap) (fuel : Nat) (this : Ptr) (id : PropertyId) : Option String :=
  Element.findLoop h id fuel (some this)

/-- The `for` loop of `Element::previousSibling` over the remaining child pointers, with the
local variable `element`.  The outer `Option` is the dereference, the inner one the returned
pointer (`none` is `nullptr`). -/
def Element.previousSiblingLoop (h : Heap) (this : Ptr) :
    List Ptr → Option Ptr → Option (Option Ptr)
  | [], _ => some none
  | node :: rest, element =>
    match h.node node with
    | none => none
    | some n =>
      if n.isText then Element.previousSiblingLoop h this rest element
      else if node = this then some element
      else Element.previousSiblingLoop h this rest (some node)

/-- The method `Element::previousSibling()` called on the element at `this`. -/
def Element.previousSibling (h : Heap) (this : Ptr) : Option (Option Ptr) :=
  match h.element this with
  | none => none
  | some e =>
    match e.parent with
    | none => some none
    | some parent =>
      match h.element parent with
      | none => none
      | some p => Element.previousSiblingLoop h this p.children none

/-- The `for` loop of `Element::nextSibling` over the remaining child pointers (it is handed the
reversed sequence), with the local variable `element`. -/
def Element.nextSiblingLoop (h : Heap) (this : Ptr) :
    List Ptr → Option Ptr → Option (Option Ptr)
  | [], _ => some none
  | node :: rest, element =>
    match h.node node with
    | none => none
    | some n =>
      if n.isText then Element.nextSiblingLoop h this rest element
      else if node = this then some element
      else Element.nextSiblingLoop h this rest (some node)

/-- The method `Element::nextSibling()` called on the element at `this`: the scan runs from
`rbegin()` to `rend()`. -/
def Element.nextSibling (h : Heap) (this : Ptr) : Option (Option Ptr) :=
  match h.element this with
  | none => none
  | some e =>
    match e.parent with
    | none => some none
    | some parent =>
      match h.element parent with
      | none => none
      | some p => Element.nextSiblingLoop h this p.children.reverse none

/-- The node at `n` is held by a child sequence of the heap: some element has `n` among its
children. -/
def Heap.owned (h : Heap) (n : Ptr) : Bool :=
  h.any fun node =>
    match node with
    | .element e => decide (n ∈ e.children)
    | .text _ => false

/-- The method `Element::addChild(child)` called on the element at `this`.  The parameter is a
`std::unique_ptr<Node>` passed by value: the caller hands over the one owning pointer to the
node, so no child sequence of the heap holds the node when the body runs.  A child sequence of
this model has no empty slot that a node moved out of it could leave behind, so for a node that
a child sequence holds the call has no result here.  The body: first the store
`child->parent = this`, then `children.push_back`, and the result is `children.back()`. -/
def Element.addChild (h : Heap) (this : Ptr) (child : Ptr) : Option (Heap × Ptr) :=
  if h.owned child then none
  else
    match h.node child with
    | none => none
    | some c =>
      let h1 : Heap := h.set child (c.setParent (some this))
      match h1.element this with
      | none => none
      | some e =>
        let children := e.children ++ [child]
        let h2 : Heap := h1.set this (.element { e with children := children })
        match children.getLast? with
        | none => none
        | some back => some (h2, back)

/-! ## Well-formed parent links -/

/-- The parent links from `start` visit exactly the elements `es`, nearest first, and end at an
element without parent: `start` is `nullptr` for the empty chain, and otherwise points to the
first element of the chain, whose parent link starts the rest of the chain. -/
def ParentChain (h : Heap) : Option Ptr → List Element → Prop
  | none, [] => True
  | some p, e :: es => h.element p = some e ∧ ParentChain h e.parent es
  | none, _ :: _ => False
  | some _, [] => False

/-- A value that ends the walk of `find`: not empty and not the marker `inherit`. -/
def isConcrete (value : String) : Bool :=
  decide (value ≠ "" ∧ value ≠ "inherit")

/-- The tree of the inheritance example: root `R` at address 0 declares `black` for the property
`fill`, its child `C` at address 1 declares nothing, and the grandchild `G` at address 2 declares
`inherit`. -/
def inheritExample (fill : PropertyId) : Heap :=
  [ .element ⟨none, 0, (PropertyList.mk []).set fill "black" 0, [1]⟩,
    .element ⟨some 0, 0, ⟨[]⟩, [2]⟩,
    .element ⟨some 1, 0, (PropertyList.mk []).set fill "inherit" 0, []⟩ ]

/-! ## Siblings -/

/-- The pointer `p` can be dereferenced and the node there is not a text node. -/
def Heap.nonText (h : Heap) (p : Ptr) : Bool :=
  match h.node p with
  | some n => !n.isText
  | none => false

/-- The tree of the sibling example: the element `P` at address 0 has the children
`Text("a")`, `ElemX`, `Text("b")`, `ElemY` at the addresses 1, 2, 3, 4. -/
def siblingExample : Heap :=
  [ .element ⟨none, 0, ⟨[]⟩, [1, 2, 3, 4]⟩,
    .text ⟨some 0, "a"⟩,
    .element ⟨some 0, 1, ⟨[]⟩, []⟩,
    .text ⟨some 0, "b"⟩,
    .element ⟨some 0, 2, ⟨[]⟩, []⟩ ]

/-! ## The parent invariant -/

/-- The parent link of the node at `c`; the outer `Option` is the dereference. -/
def Heap.parentOf (h : Heap) (c : Ptr) : Option (Option Ptr) :=
  (h.node c).map Node.parent

/-- The invariant `children[i]->parent == this`, for every element of the heap and every one of
its children. -/
def ParentInvariant (h : Heap) : Prop :=
  ∀ (P : Ptr) (e : Element), h.element P = some e →
    ∀ c ∈ e.children, h.parentOf c = some (some P)

/-- A node as its constructor leaves it: no parent and, for an element, no children. -/
def Node.fresh : Node → Bool
  | .text t => t.parent.isNone
  | .element e => e.parent.isNone && e.children.isEmpty

/-- The heaps that `addChild` builds from detached nodes: at first every node is as its
constructor left it, and each step is a call `P.addChild(n)` on a node `n` that is detached (its
parent link is null). -/
inductive Built : Heap → Prop where
  | init (h : Heap) (hfresh : ∀ n ∈ h, n.fresh = true) : Built h
  | step (h : Heap) (P n : Ptr) (h2 : Heap) (r : Ptr) (hb : Built h)
      (hdetached : h.parentOf n = some none)
      (hcall : Element.addChild h P n = some (h2, r)) : Built h2

/-- Two detached nodes: an element at address 0 and a text node at address 1. -/
def attachExample : Heap :=
  [ .element ⟨none, 0, ⟨[]⟩, []⟩, .text ⟨none, "a"⟩ ]

/-- The sibling example with one more node: a detached element at address 5. -/
def adoptExample : Heap :=
  siblingExample ++ [.element ⟨none, 3, ⟨[]⟩, []⟩]

/-- The heap of `attachExample` after the element has taken the text node as its child. -/
def attachedExample : Heap :=
  [ .element ⟨none, 0, ⟨[]⟩, [1]⟩, .text ⟨some 0, "a"⟩ ]

/-! ## Property list: the scan and the update, position by position -/

/-- The last three lines of `set`, on the property `p` that `get` found, for the incoming
declaration `c`: `p` is kept when its specificity is strictly greater, and otherwise takes the
specificity and the value of `c`. -/
def overwrite (p c : Property) : Property :=
  if p.specificity > c.specificity then p
  else { p with specificity := c.specificity, value := c.value }

/-- The update `set` makes to the list, as a recursion over it: the first property with the id is
kept or overwritten, and a list without one gets the new property at its end. -/
def setList (c : Property) : List Property → List Property
  | [] => [c]
  | p :: ps => if p.id = c.id then overwrite p c :: ps else p :: setList c ps

/-- What a declaration `c` does to a stored property `p` of a list that holds one property per
id: nothing when the ids differ. -/
def mergeInto (p c : Property) : Property :=
  if p.id = c.id then overwrite p c else p

/-- The update `add(const PropertyList&)` makes to the list: the update of `set` for each
property of the other list, front to back. -/
def setListAll (cs : List Property) (ps : List Property) : List Property :=
  cs.foldl (fun ps c => setList c ps) ps

/-- A sequence of `set` calls, each given as the triple of its arguments, applied in order. -/
def PropertyList.setAll (l : PropertyList) (calls : List Property) : PropertyList :=
  calls.foldl (fun l c => l.set c.id c.value c.specificity) l

/-- The ids of the stored properties, in storage order. -/
def PropertyList.ids (l : PropertyList) : List PropertyId :=
  l.m_properties.map fun p => p.id

/-- The stored properties that carry the id `id`. -/
def PropertyList.entries (l : PropertyList) (id : PropertyId) : List Property :=
  l.m_properties.filter fun p => p.id = id

/-- An operation that changes a property list. -/
inductive ListOp where
  | set (id : PropertyId) (value : String) (specificity : Int)
  | add (property : Property)
  | addList (properties : PropertyList)

/-- Perform one operation. -/
def ListOp.apply (l : PropertyList) : ListOp → PropertyList
  | .set id value specificity => l.set id value specificity
  | .add property => l.add property
  | .addList properties => l.addList properties

/-- Perform a sequence of operations on the list a new `PropertyList` starts with. -/
def ListOp.run (ops : List ListOp) : PropertyList :=
  ops.foldl ListOp.apply ⟨[]⟩

/-! ## The nearest view box -/

/-- Modelled from the spec: the struct `Rect` is declared in a header that is not part of the
sources at hand.  Its four numbers are only passed on by the code at hand, never computed with,
so their type `F` is left open. -/
structure Rect (F : Type) where
  x : F
  y : F
  width : F
  height : F
  deriving DecidableEq, Repr

/-- Modelled from the spec: the enumeration `LengthMode` is declared in a header that is not part
of the sources at hand; the axis modes are the width axis and the height axis. -/
inductive LengthMode where
  | Width
  | Height
  deriving DecidableEq, Repr

/-- Modelled from the spec: what `Element::nearestViewBox` uses and the sources at hand do not
hold.  `Svg` and `ViewBox` are the enumerators `ElementId::Svg` and `PropertyId::ViewBox`;
`viewBox`, `x`, `y`, `width` and `height` are the methods of `SVGElement` with these names, each
a function of the element they are called on; `valueForLength h element length mode` is
`LengthContext(element).valueForLength(length, mode)` in the heap `h`, with `L` the type
`Length`. -/
structure Collaborators (F L : Type) where
  Svg : ElementId
  ViewBox : PropertyId
  viewBox : Element → Rect F
  x : Element → L
  y : Element → L
  width : Element → L
  height : Element → L
  valueForLength : Heap → Ptr → L → LengthMode → F

/-- The method `Element::nearestViewBox()` called on the element at `this`; one unit of fuel is
spent on each recursive call `parent->nearestViewBox()`, and running out of fuel is `none`. -/
def Element.nearestViewBox {F L : Type} [OfNat F 0] [OfNat F 512] (ext : Collaborators F L)
    (h : Heap) : Nat → Ptr → Option (Rect F)
  | fuel, this =>
    match h.element this with
    | none => none
    | some e =>
      match e.parent with
      | none => some ⟨0, 0, 512, 512⟩
      | some parent =>
        match h.element parent with
        | none => none
        | some element =>
          if element.id = ext.Svg then
            if element.has ext.ViewBox then some (ext.viewBox element)
            else
              let _x := ext.valueForLength h this (ext.x element) LengthMode.Width
              let _y := ext.valueForLength h this (ext.y element) LengthMode.Height
              let _w := ext.valueForLength h this (ext.width element) LengthMode.Width
              let _h := ext.valueForLength h this (ext.height element) LengthMode.Height
              some ⟨_x, _y, _w, _h⟩
          else
            match fuel with
            | 0 => none
            | fuel + 1 => Element.nearestViewBox ext h fuel parent

/-- Collaborators for the examples: `ElementId::Svg` is 7 and `PropertyId::ViewBox` is 9, numbers
and lengths are integers, every declared view box is `0 0 100 50`, the lengths `x`, `y`, `width`
and `height` of every element are 1, 2, 30 and 40, and a length resolves to itself. -/
def exampleCollaborators : Collaborators Int Int :=
  { Svg := 7
    ViewBox := 9
    viewBox := fun _ => ⟨0, 0, 100, 50⟩
    x := fun _ => 1
    y := fun _ => 2
    width := fun _ => 30
    height := fun _ => 40
    valueForLength := fun _ _ length _ => length }

/-- A root of kind `Svg` at address 0 that declares a view box, its child at address 1 and its
grandchild at address 2. -/
def viewBoxExample : Heap :=
  [ .element ⟨none, 7, ⟨[⟨9, "0 0 100 50", 0⟩]⟩, [1]⟩,
    .element ⟨some 0, 3, ⟨[]⟩, [2]⟩,
    .element ⟨some 1, 4, ⟨[]⟩, []⟩ ]

/-- A root of kind `Svg` at address 0 that declares no view box, and its child at address 1. -/
def viewportExample : Heap :=
  [ .element ⟨none, 7, ⟨[]⟩, [1]⟩,
    .element ⟨some 0, 3, ⟨[]⟩, []⟩ ]

/-- The heap in which every child of every element occurs once in the child sequence of that
element and has that element as its parent link. -/
def WellFormed (h : Heap) : Prop :=
  ∀ (P : Ptr) (e : Element), h.element P = some e →
    e.children.Nodup ∧ ∀ c ∈ e.children, h.parentOf c = some (some P)

/-- The elements at `X` and `Y` are neighbours among the non-text children of one element: its
child sequence holds `X`, then text nodes only, then `Y`. -/
def SiblingPair (h : Heap) (X Y : Ptr) : Prop :=
  ∃ (P : Ptr) (p : Element) (a m b : List Ptr),
    h.element P = some p ∧ p.children = a ++ X :: (m ++ Y :: b) ∧
    h.nonText X = true ∧ h.nonText Y = true ∧ ∀ c ∈ m, h.nonText c = false

/-! ## The scan of `get` and the update of `set` -/

theorem getLoop_none (id : PropertyId) (ps : List Property) (i : Nat) :
    PropertyList.getLoop id ps i = none ↔ ∀ p ∈ ps, p.id ≠ id := by
  induction ps generalizing i with
  | nil => simp [PropertyList.getLoop]
  | cons p ps ih =>
    by_cases h : p.id = id
    · simp [PropertyList.getLoop, h]
    · simp [PropertyList.getLoop, h, ih]

theorem getLoop_some (id : PropertyId) (ps : List Property) (i j : Nat) (q : Property)
    (h : PropertyList.getLoop id ps i = some (j, q)) :
    ∃ pre post, ps = pre ++ q :: post ∧ (∀ p ∈ pre, p.id ≠ id) ∧ q.id = id ∧
      j = i + pre.length := by
  induction ps generalizing i with
  | nil => simp [PropertyList.getLoop] at h
  | cons p ps ih =>
    by_cases hp : p.id = id
    · simp [PropertyList.getLoop, hp] at h
      obtain ⟨rfl, rfl⟩ := h
      exact ⟨[], ps, rfl, by simp, hp, by simp⟩
    · simp [PropertyList.getLoop, hp] at h
      obtain ⟨pre, post, rfl, hpre, hq, hj⟩ := ih (i + 1) h
      refine ⟨p :: pre, post, rfl, ?_, hq, ?_⟩
      · intro x hx
        rcases List.mem_cons.1 hx with rfl | hx
        · exact hp
        · exact hpre x hx
      · simp [hj]; omega

theorem getLoop_append (id : PropertyId) (pre post : List Property) (q : Property) (i : Nat)
    (hpre : ∀ p ∈ pre, p.id ≠ id) (hq : q.id = id) :
    PropertyList.getLoop id (pre ++ q :: post) i = some (i + pre.length, q) := by
  induction pre generalizing i with
  | nil => simp [PropertyList.getLoop, hq]
  | cons p pre ih =>
    have hp : p.id ≠ id := hpre p (by simp)
    have := ih (i + 1) (fun x hx => hpre x (by simp [hx]))
    simp [PropertyList.getLoop, hp, this]; omega

theorem setList_absent (c : Property) (ps : List Property) (h : ∀ p ∈ ps, p.id ≠ c.id) :
    setList c ps = ps ++ [c] := by
  induction ps with
  | nil => rfl
  | cons p ps ih =>
    have hp : p.id ≠ c.id := h p (by simp)
    simp [setList, hp, ih (fun x hx => h x (by simp [hx]))]

theorem setList_present (c : Property) (pre post : List Property) (q : Property)
    (hpre : ∀ p ∈ pre, p.id ≠ c.id) (hq : q.id = c.id) :
    setList c (pre ++ q :: post) = pre ++ overwrite q c :: post := by
  induction pre with
  | nil => simp [setList, hq]
  | cons p pre ih =>
    have hp : p.id ≠ c.id := hpre p (by simp)
    simp [setList, hp, ih (fun x hx => hpre x (by simp [hx]))]

/-- The method `set` makes exactly the update `setList` describes. -/
theorem set_eq_setList (l : PropertyList) (id : PropertyId) (value : String) (specificity : Int) :
    l.set id value specificity = ⟨setList ⟨id, value, specificity⟩ l.m_properties⟩ := by
  unfold PropertyList.set PropertyList.get
  cases hg : PropertyList.getLoop id l.m_properties 0 with
  | none =>
    have h := (getLoop_none id l.m_properties 0).1 hg
    simp [setList_absent ⟨id, value, specificity⟩ l.m_properties h]
  | some r =>
    obtain ⟨j, q⟩ := r
    obtain ⟨pre, post, hl, hpre, hq, hj⟩ := getLoop_some id l.m_properties 0 j q hg
    have hs := setList_present ⟨id, value, specificity⟩ pre post q hpre hq
    simp only [overwrite] at hs ⊢
    rw [hl, hs]
    by_cases hc : q.specificity > specificity
    · simp only [hc, if_true]
      cases l
      simp only [] at hl
      rw [hl]
    · simp only [hc, if_false]
      have : j = pre.length := by omega
      subst this
      simp

/-! ## Specificity precedence -/

/-- C1: on a list with no entry for `id`, after `set(id, v1, s1)` and then `set(id, v2, s2)`,
`get(id)` returns an entry whose value is `v2` when `s2 >= s1` and is still `v1` otherwise. -/
theorem set_set_value (l : PropertyList) (id : PropertyId) (v1 v2 : String) (s1 s2 : Int)
    (h : l.get id = none) :
    ∃ i p, ((l.set id v1 s1).set id v2 s2).get id = some (i, p) ∧ p.id = id ∧
      p.value = (if s2 ≥ s1 then v2 else v1) := by
  have habs := (getLoop_none id l.m_properties 0).1 h
  have h1 : l.set id v1 s1 = ⟨l.m_properties ++ [⟨id, v1, s1⟩]⟩ := by
    rw [set_eq_setList, setList_absent _ _ habs]
  have h2 := setList_present ⟨id, v2, s2⟩ l.m_properties [] ⟨id, v1, s1⟩ habs rfl
  rw [h1, set_eq_setList]
  simp only [overwrite] at h2 ⊢
  rw [h2]
  refine ⟨0 + l.m_properties.length,
    if s1 > s2 then ⟨id, v1, s1⟩ else ⟨id, v2, s2⟩, ?_, ?_, ?_⟩
  · unfold PropertyList.get
    exact getLoop_append id l.m_properties [] _ 0 habs (by split <;> rfl)
  · split <;> rfl
  · by_cases hs : s1 > s2
    · have : ¬ s2 ≥ s1 := by omega
      simp [hs, this]
    · have : s2 ≥ s1 := by omega
      simp [hs, this]

/-- Witness of C1: the list holds an entry for another id, and the second call ties. -/
theorem set_set_value_witness :
    PropertyList.get ⟨[⟨7, "x", 0⟩]⟩ 3 = none ∧
    ∃ i p, (((⟨[⟨7, "x", 0⟩]⟩ : PropertyList).set 3 "red" 1).set 3 "blue" 1).get 3 = some (i, p) ∧
      p.id = 3 ∧ p.value = (if (1 : Int) ≥ 1 then "blue" else "red") :=
  ⟨rfl, set_set_value ⟨[⟨7, "x", 0⟩]⟩ 3 "red" "blue" 1 1 rfl⟩

/-- C2 fails as stated: the list holds `red` for id 0 at specificity 1, and `set(0, blue, 1)` at
the same specificity leaves `blue` stored, not `red`. -/
theorem set_tie_counterexample :
    PropertyList.get ⟨[⟨0, "red", 1⟩]⟩ 0 = some (0, ⟨0, "red", 1⟩) ∧
    ((⟨[⟨0, "red", 1⟩]⟩ : PropertyList).set 0 "blue" 1).get 0 = some (0, ⟨0, "blue", 1⟩) ∧
    (⟨0, "blue", 1⟩ : Property).value ≠ "red" := by
  refine ⟨rfl, rfl, ?_⟩
  decide

/-- C2, amended: on a list that holds an entry for `id` with specificity `s`, `set(id, v2, s)` at
the same specificity overrides: the entry for `id` stays where it is and holds `v2` at
specificity `s` afterwards. -/
theorem set_tie_overrides (l : PropertyList) (id : PropertyId) (v2 : String) (s : Int)
    (i : Nat) (p : Property) (h : l.get id = some (i, p)) (hs : p.specificity = s) :
    (l.set id v2 s).get id = some (i, ⟨id, v2, s⟩) := by
  obtain ⟨pre, post, hl, hpre, hq, hj⟩ := getLoop_some id l.m_properties 0 i p h
  have h2 := setList_present ⟨id, v2, s⟩ pre post p hpre hq
  rw [set_eq_setList, hl]
  simp only [overwrite] at h2 ⊢
  rw [h2]
  have hc : ¬ p.specificity > s := by omega
  simp only [hc, if_false]
  unfold PropertyList.get
  simp only []
  rw [hj, hq]
  exact getLoop_append id pre post _ 0 hpre rfl

/-- Witness of C2 as amended. -/
theorem set_tie_overrides_witness :
    PropertyList.get ⟨[⟨0, "red", 1⟩]⟩ 0 = some (0, ⟨0, "red", 1⟩) ∧
    (⟨0, "red", 1⟩ : Property).specificity = 1 ∧
    ((⟨[⟨0, "red", 1⟩]⟩ : PropertyList).set 0 "blue" 1).get 0 = some (0, ⟨0, "blue", 1⟩) :=
  ⟨rfl, rfl, set_tie_overrides ⟨[⟨0, "red", 1⟩]⟩ 0 "blue" 1 0 ⟨0, "red", 1⟩ rfl rfl⟩

/-! ## The inheritance walk -/

theorem findLoop_chain (h : Heap) (id : PropertyId) (es : List Element) :
    ∀ (start : Option Ptr) (fuel : Nat), ParentChain h start es → es.length ≤ fuel →
      Element.findLoop h id fuel start =
        some (((es.map fun e => e.get id).find? isConcrete).getD "") := by
  induction es with
  | nil =>
    intro start fuel hc _
    cases start with
    | none => cases fuel <;> simp [Element.findLoop, EmptyString]
    | some p => simp [ParentChain] at hc
  | cons e es ih =>
    intro start fuel hc hf
    cases start with
    | none => simp [ParentChain] at hc
    | some p =>
      obtain ⟨he, hrest⟩ := hc
      cases fuel with
      | zero => simp at hf
      | succ fuel =>
        have hf2 : es.length ≤ fuel := by simpa using hf
        by_cases hv : e.get id ≠ "" ∧ e.get id ≠ "inherit"
        · have hcon : isConcrete (e.get id) = true := by simp [isConcrete, hv]
          simp [Element.findLoop, he, InheritString, hv, List.find?, hcon]
        · have hcon : isConcrete (e.get id) = false := by simp [isConcrete, hv]
          have := ih e.parent fuel hrest hf2
          simp only [Element.findLoop, he, InheritString, hv, if_false, List.map_cons,
            List.find?, hcon, this]

/-- C3: when the parent links from the element at `this` visit the elements `es` and end at a
parentless root, `find(id)` (given fuel for each of them) returns the own value `get(id)` of the
nearest element of the chain whose value is neither empty nor `inherit`, and the empty string
when the chain has none.  In the tree R (fill black), child C (unset), grandchild G (inherit),
`G.find(fill)` is `black`. -/
theorem find_nearest_concrete :
    (∀ (h : Heap) (this : Ptr) (id : PropertyId) (es : List Element) (fuel : Nat),
      ParentChain h (some this) es → es.length ≤ fuel →
      Element.find h fuel this id =
        some (((es.map fun e => e.get id).find? isConcrete).getD "")) ∧
    (∀ fill : PropertyId, Element.find (inheritExample fill) 3 2 fill = some "black") := by
  refine ⟨fun h this id es fuel hc hf => findLoop_chain h id es (some this) fuel hc hf, ?_⟩
  intro fill
  simp [Element.find, Element.findLoop, inheritExample, Heap.element, Heap.node, Element.get,
    PropertyList.set, PropertyList.get, PropertyList.getLoop, InheritString, EmptyString]

/-- Witness of C3: the chain G, C, R of the inheritance example, walked from G. -/
theorem find_nearest_concrete_witness :
    ParentChain (inheritExample 5) (some 2)
      [⟨some 1, 0, (PropertyList.mk []).set 5 "inherit" 0, []⟩, ⟨some 0, 0, ⟨[]⟩, [2]⟩,
        ⟨none, 0, (PropertyList.mk []).set 5 "black" 0, [1]⟩] ∧
    [(⟨some 1, 0, (PropertyList.mk []).set 5 "inherit" 0, []⟩ : Element), ⟨some 0, 0, ⟨[]⟩, [2]⟩,
        ⟨none, 0, (PropertyList.mk []).set 5 "black" 0, [1]⟩].length ≤ 3 ∧
    Element.find (inheritExample 5) 3 2 5 =
      some ((([(⟨some 1, 0, (PropertyList.mk []).set 5 "inherit" 0, []⟩ : Element),
        ⟨some 0, 0, ⟨[]⟩, [2]⟩,
        ⟨none, 0, (PropertyList.mk []).set 5 "black" 0, [1]⟩].map fun e => e.get 5).find?
          isConcrete).getD "") :=
  ⟨⟨rfl, rfl, rfl, trivial⟩, by decide,
    find_nearest_concrete.1 (inheritExample 5) 2 5 _ 3 ⟨rfl, rfl, rfl, trivial⟩ (by decide)⟩

/-! ## Sequences of `set` calls -/

theorem overwrite_id (p c : Property) : (overwrite p c).id = p.id := by
  unfold overwrite
  split <;> rfl

theorem overwrite_same_id (p c : Property) (h : p.id = c.id) :
    overwrite p c = if p.specificity > c.specificity then p else c := by
  unfold overwrite
  split
  · rfl
  · cases p
    cases c
    simp only [] at h
    simp [h]

theorem setAll_append (l : PropertyList) (cs : List Property) (d : Property) :
    l.setAll (cs ++ [d]) = (l.setAll cs).set d.id d.value d.specificity := by
  simp [PropertyList.setAll, List.foldl_append]

theorem entries_set_other (l : PropertyList) (d : Property) (id : PropertyId) (h : d.id ≠ id) :
    (l.set d.id d.value d.specificity).entries id = l.entries id := by
  rw [set_eq_setList]
  unfold PropertyList.entries
  show List.filter _ (setList d l.m_properties) = _
  induction l.m_properties with
  | nil => simp [setList, h]
  | cons p ps ih =>
    by_cases hp : p.id = d.id
    · have h1 : p.id ≠ id := fun e => h (hp ▸ e)
      have h2 : (overwrite p d).id ≠ id := by rw [overwrite_id]; exact h1
      simp only [setList, hp, if_true]
      rw [List.filter_cons_of_neg (by simpa using h2), List.filter_cons_of_neg (by simpa using h1)]
    · simp only [setList, hp, if_false]
      by_cases h1 : p.id = id
      · rw [List.filter_cons_of_pos (by simpa using h1),
          List.filter_cons_of_pos (by simpa using h1), ih]
      · rw [List.filter_cons_of_neg (by simpa using h1),
          List.filter_cons_of_neg (by simpa using h1), ih]

theorem entries_set_same (l : PropertyList) (d : Property) :
    (l.set d.id d.value d.specificity).entries d.id =
      match l.entries d.id with
      | [] => [d]
      | q :: rest => overwrite q d :: rest := by
  rw [set_eq_setList]
  unfold PropertyList.entries
  show List.filter _ (setList d l.m_properties) = _
  induction l.m_properties with
  | nil => simp [setList]
  | cons p ps ih =>
    by_cases hp : p.id = d.id
    · simp [setList, hp, List.filter_cons, overwrite_id]
    · simp [setList, hp, List.filter_cons, ih]

theorem setAll_entries (calls : List Property) (id : PropertyId) :
    ((∀ c ∈ calls, c.id ≠ id) ∧ ((PropertyList.mk []).setAll calls).entries id = []) ∨
    (∃ pre c post, calls = pre ++ c :: post ∧ c.id = id ∧
      ((PropertyList.mk []).setAll calls).entries id = [c] ∧
      (∀ d ∈ calls, d.id = id → d.specificity ≤ c.specificity) ∧
      (∀ d ∈ post, d.id = id → d.specificity < c.specificity)) := by
  induction calls using List.reverseRecOn with
  | nil => left; exact ⟨by simp, rfl⟩
  | append_singleton cs d ih =>
    rw [setAll_append]
    by_cases hd : d.id = id
    · right
      subst hd
      rw [entries_set_same]
      rcases ih with ⟨hno, hnil⟩ | ⟨pre, c, post, hcs, hc, hent, hmax, hlast⟩
      · refine ⟨cs, d, [], rfl, rfl, by rw [hnil], ?_, by simp⟩
        intro x hx hxid
        rcases List.mem_append.1 hx with hx | hx
        · exact absurd hxid (hno x hx)
        · simp at hx; subst hx; exact le_refl _
      · rw [hent]
        simp only []
        rw [overwrite_same_id c d hc]
        by_cases hgt : c.specificity > d.specificity
        · refine ⟨pre, c, post ++ [d], by simp [hcs], hc, by simp [hgt], ?_, ?_⟩
          · intro x hx hxid
            rcases List.mem_append.1 hx with hx | hx
            · exact hmax x hx hxid
            · simp at hx; subst hx; omega
          · intro x hx hxid
            rcases List.mem_append.1 hx with hx | hx
            · exact hlast x hx hxid
            · simp at hx; subst hx; omega
        · refine ⟨cs, d, [], rfl, rfl, by simp [hgt], ?_, by simp⟩
          intro x hx hxid
          rcases List.mem_append.1 hx with hx | hx
          · have := hmax x hx hxid
            omega
          · simp at hx; subst hx; exact le_refl _
    · rw [entries_set_other _ d id hd]
      rcases ih with ⟨hno, hnil⟩ | ⟨pre, c, post, hcs, hc, hent, hmax, hlast⟩
      · left
        refine ⟨?_, hnil⟩
        intro x hx
        rcases List.mem_append.1 hx with hx | hx
        · exact hno x hx
        · simp at hx; subst hx; exact hd
      · right
        refine ⟨pre, c, post ++ [d], by simp [hcs], hc, hent, ?_, ?_⟩
        · intro x hx hxid
          rcases List.mem_append.1 hx with hx | hx
          · exact hmax x hx hxid
          · simp at hx; subst hx; exact absurd hxid hd
        · intro x hx hxid
          rcases List.mem_append.1 hx with hx | hx
          · exact hlast x hx hxid
          · simp at hx; subst hx; exact absurd hxid hd

/-- C4: after any sequence of `set` calls on an empty list, for every id that occurs in the
sequence the list holds exactly one entry for the id, and that entry is the triple of a call `c`
of the sequence such that no call for the id has a greater specificity (the stored specificity is
the maximum submitted) and every later call for the id has a strictly smaller one (`c` is the
last call that submitted the maximum). -/
theorem setAll_winner (calls : List Property) (id : PropertyId)
    (hid : ∃ c ∈ calls, c.id = id) :
    ∃ pre c post, calls = pre ++ c :: post ∧ c.id = id ∧
      ((PropertyList.mk []).setAll calls).entries id = [c] ∧
      (∀ d ∈ calls, d.id = id → d.specificity ≤ c.specificity) ∧
      (∀ d ∈ post, d.id = id → d.specificity < c.specificity) := by
  rcases setAll_entries calls id with ⟨hno, _⟩ | h
  · obtain ⟨c, hc, hcid⟩ := hid
    exact absurd hcid (hno c hc)
  · exact h

/-- Witness of C4: four calls, three for id 1 with specificities 2, 5, 5 and one for id 2. -/
theorem setAll_winner_witness :
    (∃ c ∈ [(⟨1, "a", 2⟩ : Property), ⟨1, "b", 5⟩, ⟨2, "z", 9⟩, ⟨1, "c", 5⟩, ⟨1, "d", 4⟩],
      c.id = 1) ∧
    ∃ pre c post,
      [(⟨1, "a", 2⟩ : Property), ⟨1, "b", 5⟩, ⟨2, "z", 9⟩, ⟨1, "c", 5⟩, ⟨1, "d", 4⟩] =
        pre ++ c :: post ∧ c.id = 1 ∧
      ((PropertyList.mk []).setAll
        [⟨1, "a", 2⟩, ⟨1, "b", 5⟩, ⟨2, "z", 9⟩, ⟨1, "c", 5⟩, ⟨1, "d", 4⟩]).entries 1 = [c] ∧
      (∀ d ∈ [(⟨1, "a", 2⟩ : Property), ⟨1, "b", 5⟩, ⟨2, "z", 9⟩, ⟨1, "c", 5⟩, ⟨1, "d", 4⟩],
        d.id = 1 → d.specificity ≤ c.specificity) ∧
      (∀ d ∈ post, d.id = 1 → d.specificity < c.specificity) :=
  ⟨⟨⟨1, "a", 2⟩, by simp, rfl⟩,
    setAll_winner [⟨1, "a", 2⟩, ⟨1, "b", 5⟩, ⟨2, "z", 9⟩, ⟨1, "c", 5⟩, ⟨1, "d", 4⟩] 1
      ⟨⟨1, "a", 2⟩, by simp, rfl⟩⟩

/-! ## Uniqueness by id -/

theorem ids_set (l : PropertyList) (id : PropertyId) (value : String) (specificity : Int) :
    (l.set id value specificity).ids = if id ∈ l.ids then l.ids else l.ids ++ [id] := by
  rw [set_eq_setList]
  unfold PropertyList.ids
  show List.map _ (setList ⟨id, value, specificity⟩ l.m_properties) = _
  induction l.m_properties with
  | nil => simp [setList]
  | cons p ps ih =>
    by_cases hp : p.id = id
    · simp [setList, hp, overwrite_id]
    · have hne : ¬ id = p.id := fun e => hp e.symm
      simp only [setList, hp, if_false, List.map_cons, ih, List.mem_cons, hne, false_or]
      split <;> simp

theorem ids_set_nodup (l : PropertyList) (id : PropertyId) (value : String) (specificity : Int)
    (h : l.ids.Nodup) : (l.set id value specificity).ids.Nodup := by
  rw [ids_set]
  split
  · exact h
  · rename_i hmem
    exact List.Nodup.append h (by simp) (by simpa using hmem)

theorem ids_set_grows (l : PropertyList) (id : PropertyId) (value : String) (specificity : Int) :
    l.ids <+: (l.set id value specificity).ids := by
  rw [ids_set]
  split
  · exact List.prefix_refl _
  · exact List.prefix_append _ _

theorem ids_addList_nodup (properties : List Property) :
    ∀ l : PropertyList, l.ids.Nodup → (l.addList ⟨properties⟩).ids.Nodup := by
  induction properties with
  | nil => intro l h; exact h
  | cons p ps ih =>
    intro l h
    exact ih (l.add p) (ids_set_nodup l p.id p.value p.specificity h)

theorem ids_addList_grows (properties : List Property) :
    ∀ l : PropertyList, l.ids <+: (l.addList ⟨properties⟩).ids := by
  induction properties with
  | nil => intro l; exact List.prefix_refl _
  | cons p ps ih =>
    intro l
    exact List.IsPrefix.trans (ids_set_grows l p.id p.value p.specificity) (ih (l.add p))

theorem ids_apply_nodup (l : PropertyList) (op : ListOp) (h : l.ids.Nodup) :
    (op.apply l).ids.Nodup := by
  cases op with
  | set id value specificity => exact ids_set_nodup l id value specificity h
  | add property => exact ids_set_nodup l _ _ _ h
  | addList properties => exact ids_addList_nodup properties.m_properties l h

theorem ids_apply_grows (l : PropertyList) (op : ListOp) : l.ids <+: (op.apply l).ids := by
  cases op with
  | set id value specificity => exact ids_set_grows l id value specificity
  | add property => exact ids_set_grows l _ _ _
  | addList properties => exact ids_addList_grows properties.m_properties l

theorem ids_run_nodup (ops : List ListOp) : (ListOp.run ops).ids.Nodup := by
  induction ops using List.reverseRecOn with
  | nil => simp [ListOp.run, PropertyList.ids]
  | append_singleton ops op ih =>
    have : ListOp.run (ops ++ [op]) = op.apply (ListOp.run ops) := by
      simp [ListOp.run, List.foldl_append]
    rw [this]
    exact ids_apply_nodup _ op ih

theorem entries_length_le_one (ps : List Property) (id : PropertyId)
    (h : (ps.map fun p => p.id).Nodup) : (ps.filter fun p => p.id = id).length ≤ 1 := by
  induction ps with
  | nil => simp
  | cons p ps ih =>
    rw [List.map_cons, List.nodup_cons] at h
    by_cases hp : p.id = id
    · have hnil : (ps.filter fun q => q.id = id) = [] := by
        rw [List.filter_eq_nil_iff]
        intro q hq hqid
        apply h.1
        rw [List.mem_map]
        exact ⟨q, hq, by rw [hp]; simpa using hqid⟩
      rw [List.filter_cons_of_pos (by simpa using hp), hnil]
      simp
    · rw [List.filter_cons_of_neg (by simpa using hp)]
      exact ih h.2

/-- C5: after any sequence `ops` of `set`, `add(Property)` and `add(PropertyList)` operations on
an empty list, no id is stored twice (for every id the list holds at most one property), and a
further operation `op` removes nothing: the ids stored before it are still stored after it, at
the same positions, so the ids present only grow. -/
theorem ops_unique_by_id (ops : List ListOp) (op : ListOp) :
    (ListOp.run ops).ids.Nodup ∧
    (∀ id, ((ListOp.run ops).entries id).length ≤ 1) ∧
    (ListOp.run ops).ids <+: (ListOp.run (ops ++ [op])).ids ∧
    (∀ id, id ∈ (ListOp.run ops).ids → id ∈ (ListOp.run (ops ++ [op])).ids) := by
  have hstep : ListOp.run (ops ++ [op]) = op.apply (ListOp.run ops) := by
    simp [ListOp.run, List.foldl_append]
  have hgrow := ids_apply_grows (ListOp.run ops) op
  refine ⟨ids_run_nodup ops, ?_, ?_, ?_⟩
  · intro id
    exact entries_length_le_one _ id (ids_run_nodup ops)
  · rw [hstep]
    exact hgrow
  · intro id hmem
    rw [hstep]
    exact hgrow.subset hmem

/-! ## Merging a list twice -/

theorem addList_eq_setListAll (cs : List Property) :
    ∀ l : PropertyList, (l.addList ⟨cs⟩).m_properties = setListAll cs l.m_properties := by
  induction cs with
  | nil => intro l; rfl
  | cons c cs ih =>
    intro l
    have h1 : l.addList ⟨c :: cs⟩ = (l.add c).addList ⟨cs⟩ := rfl
    have h2 : (l.add c).m_properties = setList c l.m_properties := by
      unfold PropertyList.add
      rw [set_eq_setList]
    rw [h1, ih, h2]
    rfl

theorem mergeInto_id (p c : Property) : (mergeInto p c).id = p.id := by
  unfold mergeInto
  split
  · exact overwrite_id p c
  · rfl

theorem mergeInto_same_id (p c : Property) (h : p.id = c.id) :
    mergeInto p c = if p.specificity > c.specificity then p else c := by
  unfold mergeInto
  rw [if_pos h, overwrite_same_id p c h]

theorem mergeInto_other_id (p c : Property) (h : ¬ p.id = c.id) : mergeInto p c = p := by
  unfold mergeInto
  rw [if_neg h]

theorem foldl_mergeInto_id (cs : List Property) :
    ∀ p : Property, (cs.foldl mergeInto p).id = p.id := by
  induction cs with
  | nil => intro p; rfl
  | cons c cs ih => intro p; rw [List.foldl_cons, ih, mergeInto_id]

theorem mergeInto_specificity (p c : Property) :
    p.specificity ≤ (mergeInto p c).specificity ∧
      (p.id = c.id → c.specificity ≤ (mergeInto p c).specificity) := by
  unfold mergeInto overwrite
  by_cases h : p.id = c.id
  · by_cases hs : p.specificity > c.specificity
    · simp only [h, hs, if_true]
      exact ⟨le_refl _, fun _ => by omega⟩
    · simp only [h, hs, if_true, if_false]
      exact ⟨by omega, fun _ => le_refl _⟩
  · simp only [h, if_false]
    exact ⟨le_refl _, fun e => False.elim e⟩

theorem foldl_mergeInto_specificity (cs : List Property) :
    ∀ p : Property, p.specificity ≤ (cs.foldl mergeInto p).specificity := by
  induction cs with
  | nil => intro p; exact le_refl _
  | cons c cs ih =>
    intro p
    rw [List.foldl_cons]
    exact le_trans (mergeInto_specificity p c).1 (ih _)

/-- A property with the id and the final specificity of `p` is either left alone by the
declarations `cs` or ends as `p` does. -/
theorem foldl_mergeInto_level (cs : List Property) :
    ∀ p x : Property, x.id = p.id → x.specificity = (cs.foldl mergeInto p).specificity →
      cs.foldl mergeInto x = x ∨ cs.foldl mergeInto x = cs.foldl mergeInto p := by
  induction cs with
  | nil => intro p x _ _; left; rfl
  | cons c cs ih =>
    intro p x hid hs
    rw [List.foldl_cons] at hs
    rw [List.foldl_cons, List.foldl_cons]
    have hmono := foldl_mergeInto_specificity cs (mergeInto p c)
    by_cases hc : p.id = c.id
    · have hxc : x.id = c.id := hid.trans hc
      have hcle := (mergeInto_specificity p c).2 hc
      by_cases hgt : x.specificity > c.specificity
      · have hx : mergeInto x c = x := by rw [mergeInto_same_id x c hxc, if_pos hgt]
        rw [hx]
        exact ih (mergeInto p c) x (by rw [mergeInto_id]; exact hid) hs
      · have hxeq : x.specificity = c.specificity := by omega
        have hx : mergeInto x c = c := by rw [mergeInto_same_id x c hxc, if_neg hgt]
        have hp : mergeInto p c = c := by
          have hpgt : ¬ p.specificity > c.specificity := by
            have := (mergeInto_specificity p c).1
            omega
          rw [mergeInto_same_id p c hc, if_neg hpgt]
        rw [hx, hp]
        right; rfl
    · have hxc : ¬ x.id = c.id := fun e => hc (hid ▸ e)
      have hx : mergeInto x c = x := mergeInto_other_id x c hxc
      have hp : mergeInto p c = p := mergeInto_other_id p c hc
      rw [hx, hp]
      rw [hp] at hs
      exact ih p x hid hs

theorem foldl_mergeInto_idem (cs : List Property) (p : Property) :
    cs.foldl mergeInto (cs.foldl mergeInto p) = cs.foldl mergeInto p := by
  rcases foldl_mergeInto_level cs p (cs.foldl mergeInto p) (foldl_mergeInto_id cs p) rfl with h | h
  · exact h
  · exact h

theorem foldl_mergeInto_head (c : Property) (cs : List Property) :
    (c :: cs).foldl mergeInto (cs.foldl mergeInto c) = cs.foldl mergeInto c := by
  rw [List.foldl_cons]
  have hid : (cs.foldl mergeInto c).id = c.id := foldl_mergeInto_id cs c
  have hle := foldl_mergeInto_specificity cs c
  by_cases hgt : (cs.foldl mergeInto c).specificity > c.specificity
  · have hx : mergeInto (cs.foldl mergeInto c) c = cs.foldl mergeInto c := by
      rw [mergeInto_same_id _ c hid, if_pos hgt]
    rw [hx]
    exact foldl_mergeInto_idem cs c
  · have hx : mergeInto (cs.foldl mergeInto c) c = c := by
      rw [mergeInto_same_id _ c hid, if_neg hgt]
    rw [hx]

theorem setListAll_cons (cs : List Property) :
    ∀ (p : Property) (ps : List Property),
      setListAll cs (p :: ps) =
        cs.foldl mergeInto p :: setListAll (cs.filter fun c => c.id ≠ p.id) ps := by
  induction cs with
  | nil => intro p ps; rfl
  | cons c cs ih =>
    intro p ps
    have hstep : setListAll (c :: cs) (p :: ps) = setListAll cs (setList c (p :: ps)) := rfl
    rw [hstep, List.foldl_cons]
    by_cases hc : p.id = c.id
    · have h1 : setList c (p :: ps) = overwrite p c :: ps := by simp [setList, hc]
      have h2 : mergeInto p c = overwrite p c := by unfold mergeInto; rw [if_pos hc]
      have h3 : ((c :: cs).filter fun d => d.id ≠ p.id) = cs.filter fun d => d.id ≠ p.id := by
        rw [List.filter_cons_of_neg (by simp [hc])]
      rw [h1, h2, h3, ih, overwrite_id]
    · have h1 : setList c (p :: ps) = p :: setList c ps := by simp [setList, hc]
      have h2 : mergeInto p c = p := mergeInto_other_id p c hc
      have hne : ¬ c.id = p.id := fun e => hc e.symm
      have h3 : ((c :: cs).filter fun d => d.id ≠ p.id) =
          c :: cs.filter fun d => d.id ≠ p.id := by
        rw [List.filter_cons_of_pos (by simp [hne])]
      rw [h1, h2, h3, ih]
      rfl

theorem setListAll_idem_nil (n : Nat) :
    ∀ cs : List Property, cs.length ≤ n → setListAll cs (setListAll cs []) = setListAll cs [] := by
  induction n with
  | zero =>
    intro cs h
    have : cs = [] := List.length_eq_zero.1 (Nat.le_zero.1 h)
    subst this
    rfl
  | succ n ih =>
    intro cs h
    cases cs with
    | nil => rfl
    | cons c cs =>
      have hstep : setListAll (c :: cs) [] = setListAll cs [c] := rfl
      have hlen : (cs.filter fun d => d.id ≠ c.id).length ≤ n :=
        le_trans (List.length_filter_le _ _) (by simpa using h)
      have hid : (cs.foldl mergeInto c).id = c.id := foldl_mergeInto_id cs c
      have hfil : ((c :: cs).filter fun d => d.id ≠ (cs.foldl mergeInto c).id) =
          cs.filter fun d => d.id ≠ c.id := by
        rw [hid, List.filter_cons_of_neg (by simp)]
      rw [hstep, setListAll_cons cs c [], setListAll_cons (c :: cs), foldl_mergeInto_head,
        hfil, ih _ hlen]

theorem setListAll_idem (ps : List Property) :
    ∀ cs : List Property, setListAll cs (setListAll cs ps) = setListAll cs ps := by
  induction ps with
  | nil => intro cs; exact setListAll_idem_nil cs.length cs (le_refl _)
  | cons p ps ih =>
    intro cs
    rw [setListAll_cons cs p ps, setListAll_cons cs, foldl_mergeInto_idem, foldl_mergeInto_id,
      ih]

/-- C6: merging is idempotent: for every target list `L` and every list `A`, `L.add(A)` applied
twice in a row leaves `L` in exactly the state (entries, values, specificities and order) that
one `L.add(A)` leaves it in. -/
theorem addList_idempotent (L A : PropertyList) : (L.addList A).addList A = L.addList A := by
  cases A with
  | mk cs =>
    have h1 := addList_eq_setListAll cs (L.addList ⟨cs⟩)
    have h2 := addList_eq_setListAll cs L
    rw [h2, setListAll_idem] at h1
    have h3 : ((L.addList ⟨cs⟩).addList ⟨cs⟩).m_properties = (L.addList ⟨cs⟩).m_properties := by
      rw [h1, h2]
    cases hx : (L.addList ⟨cs⟩).addList ⟨cs⟩
    cases hy : L.addList ⟨cs⟩
    rw [hx, hy] at h3
    simp only [] at h3
    rw [h3]

/-! ## Sibling navigation -/

theorem node_of_element (h : Heap) (p : Ptr) (e : Element) (he : h.element p = some e) :
    h.node p = some (.element e) := by
  unfold Heap.element at he
  split at he
  · rename_i e2 hn
    simp only [Option.some.injEq] at he
    rw [hn, he]
  · simp at he

theorem previousSiblingLoop_scan (h : Heap) (this : Ptr) (e : Element)
    (he : h.element this = some e) (post : List Ptr) (pre : List Ptr) :
    ∀ element : Option Ptr, this ∉ pre → (∀ c ∈ pre, (h.node c).isSome) →
      Element.previousSiblingLoop h this (pre ++ this :: post) element =
        some (((pre.filter h.nonText).getLast?).or element) := by
  have hthis := node_of_element h this e he
  induction pre with
  | nil =>
    intro element _ _
    simp [Element.previousSiblingLoop, hthis, Node.isText]
  | cons c pre ih =>
    intro element hnot hvalid
    have hc : c ≠ this := fun e => hnot (by simp [e])
    have hnot2 : this ∉ pre := fun hm => hnot (by simp [hm])
    have hvalid2 : ∀ c ∈ pre, (h.node c).isSome := fun x hx => hvalid x (by simp [hx])
    have hcv := hvalid c (by simp)
    cases hn : h.node c with
    | none => simp [hn] at hcv
    | some n =>
      cases ht : n.isText with
      | true =>
        have hf : h.nonText c = false := by simp [Heap.nonText, hn, ht]
        rw [List.cons_append, Element.previousSiblingLoop]
        simp only [hn, ht, if_true]
        rw [ih element hnot2 hvalid2, List.filter_cons_of_neg (by simp [hf])]
      | false =>
        have hf : h.nonText c = true := by simp [Heap.nonText, hn, ht]
        rw [List.cons_append, Element.previousSiblingLoop]
        simp only [hn, ht, hc, if_false, Bool.false_eq_true]
        rw [ih (some c) hnot2 hvalid2, List.filter_cons_of_pos hf, List.getLast?_cons]
        cases (List.filter h.nonText pre).getLast? <;> rfl

theorem nextSiblingLoop_eq (h : Heap) (this : Ptr) (nodes : List Ptr) :
    ∀ element : Option Ptr,
      Element.nextSiblingLoop h this nodes element =
        Element.previousSiblingLoop h this nodes element := by
  induction nodes with
  | nil => intro element; rfl
  | cons c nodes ih =>
    intro element
    rw [Element.nextSiblingLoop, Element.previousSiblingLoop]
    cases h.node c with
    | none => rfl
    | some n => simp only [ih]

theorem nonText_of_getLast (h : Heap) (l : List Ptr) (r : Ptr)
    (hr : (l.filter h.nonText).getLast? = some r) : h.nonText r = true ∧ r ∈ l := by
  have hm : r ∈ l.filter h.nonText := List.mem_of_mem_getLast? (by simp [hr])
  rw [List.mem_filter] at hm
  exact ⟨hm.2, hm.1⟩

theorem nonText_of_head (h : Heap) (l : List Ptr) (r : Ptr)
    (hr : (l.filter h.nonText).head? = some r) : h.nonText r = true ∧ r ∈ l := by
  have hm : r ∈ l.filter h.nonText := List.mem_of_mem_head? (by simp [hr])
  rw [List.mem_filter] at hm
  exact ⟨hm.2, hm.1⟩

/-- C7: `previousSibling()` on an element without parent returns null.  On an element `this` whose
parent has the child sequence `pre ++ this :: post` with `this` not in `pre`, it returns the last
non-text child in `pre` (the non-text child with the greatest position before `this`), and null
when `pre` holds no non-text child; what it returns is never a text node.  For the children
`Text("a")`, `ElemX`, `Text("b")`, `ElemY`, the previous sibling of `ElemY` is `ElemX` and the
previous sibling of `ElemX` is null. -/
theorem previousSibling_spec :
    (∀ (h : Heap) (this : Ptr) (e : Element), h.element this = some e → e.parent = none →
      Element.previousSibling h this = some none) ∧
    (∀ (h : Heap) (this : Ptr) (e : Element) (parent : Ptr) (p : Element) (pre post : List Ptr),
      h.element this = some e → e.parent = some parent → h.element parent = some p →
      p.children = pre ++ this :: post → this ∉ pre → (∀ c ∈ pre, (h.node c).isSome) →
      Element.previousSibling h this = some ((pre.filter h.nonText).getLast?) ∧
      (∀ r, Element.previousSibling h this = some (some r) → h.nonText r = true ∧ r ∈ pre)) ∧
    (Element.previousSibling siblingExample 4 = some (some 2) ∧
      Element.previousSibling siblingExample 2 = some none) := by
  refine ⟨?_, ?_, ?_⟩
  · intro h this e he hp
    simp [Element.previousSibling, he, hp]
  · intro h this e parent p pre post he hp hpar hch hnot hvalid
    have hres : Element.previousSibling h this = some ((pre.filter h.nonText).getLast?) := by
      unfold Element.previousSibling
      simp only [he, hp, hpar, hch]
      rw [previousSiblingLoop_scan h this e he post pre none hnot hvalid]
      cases (List.filter h.nonText pre).getLast? <;> rfl
    refine ⟨hres, ?_⟩
    intro r hr
    rw [hres] at hr
    exact nonText_of_getLast h pre r (by simpa using hr)
  · exact ⟨by decide, by decide⟩

/-- Witness of C7: `ElemY` of the sibling example, with `Text("a")`, `ElemX`, `Text("b")` before
it. -/
theorem previousSibling_spec_witness :
    siblingExample.element 4 = some ⟨some 0, 2, ⟨[]⟩, []⟩ ∧
    (⟨some 0, 2, ⟨[]⟩, []⟩ : Element).parent = some 0 ∧
    siblingExample.element 0 = some ⟨none, 0, ⟨[]⟩, [1, 2, 3, 4]⟩ ∧
    (⟨none, 0, ⟨[]⟩, [1, 2, 3, 4]⟩ : Element).children = [1, 2, 3] ++ 4 :: [] ∧
    4 ∉ [1, 2, 3] ∧ (∀ c ∈ [1, 2, 3], (siblingExample.node c).isSome) ∧
    (Element.previousSibling siblingExample 4 =
        some (([1, 2, 3].filter siblingExample.nonText).getLast?) ∧
      (∀ r, Element.previousSibling siblingExample 4 = some (some r) →
        siblingExample.nonText r = true ∧ r ∈ [1, 2, 3])) :=
  ⟨rfl, rfl, rfl, rfl, by decide, by decide,
    previousSibling_spec.2.1 siblingExample 4 ⟨some 0, 2, ⟨[]⟩, []⟩ 0
      ⟨none, 0, ⟨[]⟩, [1, 2, 3, 4]⟩ [1, 2, 3] [] rfl rfl rfl rfl (by decide) (by decide)⟩

/-- C8: `nextSibling()` on an element without parent returns null.  On an element `this` whose
parent has the child sequence `pre ++ this :: post` with `this` not in `post`, it returns the
first non-text child in `post` (the non-text child with the smallest position after `this`), and
null when `post` holds no non-text child; what it returns is never a text node.  For the children
`Text("a")`, `ElemX`, `Text("b")`, `ElemY`, the next sibling of `ElemX` is `ElemY`. -/
theorem nextSibling_spec :
    (∀ (h : Heap) (this : Ptr) (e : Element), h.element this = some e → e.parent = none →
      Element.nextSibling h this = some none) ∧
    (∀ (h : Heap) (this : Ptr) (e : Element) (parent : Ptr) (p : Element) (pre post : List Ptr),
      h.element this = some e → e.parent = some parent → h.element parent = some p →
      p.children = pre ++ this :: post → this ∉ post → (∀ c ∈ post, (h.node c).isSome) →
      Element.nextSibling h this = some ((post.filter h.nonText).head?) ∧
      (∀ r, Element.nextSibling h this = some (some r) → h.nonText r = true ∧ r ∈ post)) ∧
    (Element.nextSibling siblingExample 2 = some (some 4) ∧
      Element.nextSibling siblingExample 4 = some none) := by
  refine ⟨?_, ?_, ?_⟩
  · intro h this e he hp
    simp [Element.nextSibling, he, hp]
  · intro h this e parent p pre post he hp hpar hch hnot hvalid
    have hres : Element.nextSibling h this = some ((post.filter h.nonText).head?) := by
      unfold Element.nextSibling
      simp only [he, hp, hpar, hch]
      rw [nextSiblingLoop_eq, List.reverse_append, List.reverse_cons, List.append_assoc,
        List.singleton_append,
        previousSiblingLoop_scan h this e he pre.reverse post.reverse none
          (by simpa using hnot) (by simpa using hvalid),
        List.filter_reverse, List.getLast?_reverse]
      cases (List.filter h.nonText post).head? <;> rfl
    refine ⟨hres, ?_⟩
    intro r hr
    rw [hres] at hr
    exact nonText_of_head h post r (by simpa using hr)
  · exact ⟨by decide, by decide⟩

/-- Witness of C8: `ElemX` of the sibling example, with `Text("b")` and `ElemY` after it. -/
theorem nextSibling_spec_witness :
    siblingExample.element 2 = some ⟨some 0, 1, ⟨[]⟩, []⟩ ∧
    (⟨some 0, 1, ⟨[]⟩, []⟩ : Element).parent = some 0 ∧
    siblingExample.element 0 = some ⟨none, 0, ⟨[]⟩, [1, 2, 3, 4]⟩ ∧
    (⟨none, 0, ⟨[]⟩, [1, 2, 3, 4]⟩ : Element).children = [1] ++ 2 :: [3, 4] ∧
    2 ∉ [3, 4] ∧ (∀ c ∈ [3, 4], (siblingExample.node c).isSome) ∧
    (Element.nextSibling siblingExample 2 =
        some (([3, 4].filter siblingExample.nonText).head?) ∧
      (∀ r, Element.nextSibling siblingExample 2 = some (some r) →
        siblingExample.nonText r = true ∧ r ∈ [3, 4])) :=
  ⟨rfl, rfl, rfl, rfl, by decide, by decide,
    nextSibling_spec.2.1 siblingExample 2 ⟨some 0, 1, ⟨[]⟩, []⟩ 0
      ⟨none, 0, ⟨[]⟩, [1, 2, 3, 4]⟩ [1] [3, 4] rfl rfl rfl rfl (by decide) (by decide)⟩

/-! ## Attaching a child -/

theorem node_set (h : Heap) (i j : Ptr) (x : Node) (hi : i < h.length) :
    Heap.node (h.set i x) j = if j = i then some x else h.node j := by
  unfold Heap.node
  rw [List.getElem?_set]
  by_cases hij : i = j
  · subst hij
    simp [hi]
  · have : ¬ j = i := fun e => hij e.symm
    simp [hij, this]

theorem node_lt (h : Heap) (p : Ptr) (n : Node) (hn : h.node p = some n) : p < h.length := by
  unfold Heap.node at hn
  by_contra hlt
  rw [List.getElem?_eq_none (Nat.le_of_not_lt hlt)] at hn
  simp at hn

theorem element_of_node (h : Heap) (p : Ptr) (e : Element) (hn : h.node p = some (.element e)) :
    h.element p = some e := by
  unfold Heap.element
  rw [hn]

/-- The heap after `addChild`, node by node: the element at `this` gets the child at the end of
its child sequence (and itself as parent when it is its own child), the node at `child` gets
`this` as parent, and every other node is as before. -/
theorem addChild_heap (h : Heap) (this child : Ptr) (c : Node) (e : Element)
    (hown : h.owned child = false) (hc : h.node child = some c)
    (he : h.element this = some e) :
    ∃ h2, Element.addChild h this child = some (h2, child) ∧
      ∀ q, h2.node q =
        if q = this then
          some (.element ⟨if this = child then some this else e.parent, e.id, e.properties,
            e.children ++ [child]⟩)
        else if q = child then some (c.setParent (some this))
        else h.node q := by
  have hclt := node_lt h child c hc
  have hen := node_of_element h this e he
  have htlt := node_lt h this _ hen
  have hlast : (e.children ++ [child]).getLast? = some child := List.getLast?_concat _
  by_cases hsame : this = child
  · subst hsame
    have hce : c = .element e := by
      rw [hen] at hc
      exact (Option.some.inj hc).symm
    subst hce
    have h1 : Heap.element (h.set this (Node.setParent (some this) (.element e))) this =
        some { e with parent := some this } := by
      apply element_of_node
      rw [node_set h this this _ htlt]
      simp [Node.setParent]
    refine ⟨(h.set this (Node.setParent (some this) (.element e))).set this
      (.element ⟨some this, e.id, e.properties, e.children ++ [this]⟩), ?_, ?_⟩
    · unfold Element.addChild
      simp only [hown, Bool.false_eq_true, if_false, hc, h1, hlast]
    · intro q
      rw [node_set _ this q _ (by simpa using htlt), node_set h this q _ htlt]
      by_cases hq : q = this
      · simp [hq]
      · simp [hq]
  · have h1 : Heap.element (h.set child (c.setParent (some this))) this = some e := by
      apply element_of_node
      rw [node_set h child this _ hclt]
      simp [hsame, hen]
    refine ⟨(h.set child (c.setParent (some this))).set this
      (.element { e with children := e.children ++ [child] }), ?_, ?_⟩
    · unfold Element.addChild
      simp only [hown, Bool.false_eq_true, if_false, hc, h1, hlast]
    · intro q
      rw [node_set _ this q _ (by simpa using htlt), node_set h child q _ hclt]
      by_cases hq : q = this
      · simp [hq, hsame]
      · simp [hq]

theorem addChild_inv (h : Heap) (this child : Ptr) (h2 : Heap) (r : Ptr)
    (hcall : Element.addChild h this child = some (h2, r)) :
    ∃ c e, h.owned child = false ∧ h.node child = some c ∧ h.element this = some e := by
  unfold Element.addChild at hcall
  have hown : h.owned child = false := by
    cases ho : h.owned child with
    | false => rfl
    | true => simp [ho] at hcall
  simp only [hown, Bool.false_eq_true, if_false] at hcall
  cases hc : h.node child with
  | none => simp [hc] at hcall
  | some c =>
    simp only [hc] at hcall
    have hclt := node_lt h child c hc
    cases h1 : Heap.element (h.set child (c.setParent (some this))) this with
    | none => simp [h1] at hcall
    | some e1 =>
      have hn1 := node_of_element _ this e1 h1
      rw [node_set h child this _ hclt] at hn1
      by_cases hsame : this = child
      · subst hsame
        cases c with
        | text t => simp [Node.setParent] at hn1
        | element e0 => exact ⟨_, e0, hown, rfl, element_of_node h this e0 hc⟩
      · simp only [hsame, if_false] at hn1
        exact ⟨c, e1, hown, rfl, element_of_node h this e1 hn1⟩

theorem setParent_parent (c : Node) (p : Option Ptr) : (c.setParent p).parent = p := by
  cases c <;> rfl

theorem addChild_preserves (h : Heap) (P n : Ptr) (h2 : Heap) (r : Ptr)
    (hinv : ParentInvariant h) (hdet : h.parentOf n = some none)
    (hcall : Element.addChild h P n = some (h2, r)) : ParentInvariant h2 := by
  obtain ⟨c, e, hown, hc, he⟩ := addChild_inv h P n h2 r hcall
  obtain ⟨h3, hcall3, hnode⟩ := addChild_heap h P n c e hown hc he
  rw [hcall] at hcall3
  have hh : h2 = h3 := (Prod.mk.inj (Option.some.inj hcall3)).1
  subst hh
  have hen := node_of_element h P e he
  have hnot : ∀ (Q : Ptr) (eq : Element), h.element Q = some eq → n ∉ eq.children := by
    intro Q eq hQ hmem
    have := hinv Q eq hQ n hmem
    rw [hdet] at this
    simp at this
  intro Q eq hQ x hx
  have hQn := node_of_element h2 Q eq hQ
  rw [hnode Q] at hQn
  by_cases hQP : Q = P
  · subst hQP
    simp only [if_true] at hQn
    have heq : eq = ⟨if Q = n then some Q else e.parent, e.id, e.properties,
        e.children ++ [n]⟩ := by
      injection hQn with h1
      injection h1 with h1
      exact h1.symm
    subst heq
    simp only [List.mem_append, List.mem_singleton] at hx
    unfold Heap.parentOf
    rw [hnode x]
    rcases hx with hx | hx
    · have hxn : ¬ x = n := fun e1 => hnot Q e he (e1 ▸ hx)
      have hpx := hinv Q e he x hx
      by_cases hxQ : x = Q
      · subst hxQ
        simp only [if_true, hxn, if_false]
        unfold Heap.parentOf at hpx
        rw [hen] at hpx
        simpa [Node.parent] using hpx
      · simp only [hxQ, hxn, if_false]
        exact hpx
    · subst hx
      by_cases hxQ : x = Q
      · subst hxQ
        simp [Node.parent]
      · have hQx : ¬ Q = x := fun e1 => hxQ e1.symm
        simp [hxQ, setParent_parent]
  · simp only [hQP, if_false] at hQn
    have hex : ∃ eq0, h.element Q = some eq0 ∧ eq0.children = eq.children := by
      by_cases hQn2 : Q = n
      · subst hQn2
        simp only [if_true] at hQn
        cases c with
        | text t => simp [Node.setParent] at hQn
        | element e0 =>
          simp only [Node.setParent, Option.some.injEq, Node.element.injEq] at hQn
          exact ⟨e0, element_of_node h Q e0 hc, by rw [← hQn]⟩
      · simp only [hQn2, if_false] at hQn
        exact ⟨eq, element_of_node h Q eq hQn, rfl⟩
    obtain ⟨eq0, hQ0, hch⟩ := hex
    rw [← hch] at hx
    have hxn : ¬ x = n := fun e1 => hnot Q eq0 hQ0 (e1 ▸ hx)
    have hpx := hinv Q eq0 hQ0 x hx
    unfold Heap.parentOf
    rw [hnode x]
    by_cases hxP : x = P
    · subst hxP
      simp only [if_true, hxn, if_false]
      unfold Heap.parentOf at hpx
      rw [hen] at hpx
      simpa [Node.parent] using hpx
    · simp only [hxP, hxn, if_false]
      exact hpx

theorem fresh_invariant (h : Heap) (hfresh : ∀ n ∈ h, n.fresh = true) : ParentInvariant h := by
  intro P e he c hc
  have hen := node_of_element h P e he
  have hmem : Node.element e ∈ h := by
    unfold Heap.node at hen
    exact List.getElem?_mem hen
  have hf := hfresh _ hmem
  simp only [Node.fresh, Bool.and_eq_true, List.isEmpty_iff] at hf
  rw [hf.2] at hc
  simp at hc

theorem built_invariant (h : Heap) (hb : Built h) : ParentInvariant h := by
  induction hb with
  | init h hfresh => exact fresh_invariant h hfresh
  | step h P n h2 r _ hdetached hcall ih => exact addChild_preserves h P n h2 r ih hdetached hcall

/-- The meaning of `Heap.owned`: some element of the heap has the node among its children. -/
theorem owned_iff (h : Heap) (n : Ptr) :
    h.owned n = true ↔ ∃ (Q : Ptr) (e : Element), h.element Q = some e ∧ n ∈ e.children := by
  unfold Heap.owned
  rw [List.any_eq_true]
  constructor
  · rintro ⟨node, hmem, hnode⟩
    cases node with
    | text t => simp at hnode
    | element e =>
      obtain ⟨Q, hQ⟩ := List.mem_iff_getElem?.1 hmem
      exact ⟨Q, e, element_of_node h Q e hQ, by simpa using hnode⟩
  · rintro ⟨Q, e, hQ, hn⟩
    have hnode := node_of_element h Q e hQ
    exact ⟨.element e, List.getElem?_mem hnode, by simpa using hn⟩

/-- For a node that a child sequence of the heap holds, `addChild` has no result in this
model. -/
theorem addChild_owned (h : Heap) (this child : Ptr) (hown : h.owned child = true) :
    Element.addChild h this child = none := by
  unfold Element.addChild
  simp only [hown, if_true]

/-- C9: for every element `P` and every node `n` that the caller owns (no child sequence of the
heap holds it, as for the `std::unique_ptr` that the method takes), whatever else the state of
the heap and of `P`, `P.addChild(n)` returns `n`; afterwards the parent link of `n` is `P`, the
child sequence of `P` is the one before the call followed by `n` (so `n` is its last entry, the
earlier children are an unchanged prefix and the length has grown by one), and every node other
than `P` and `n` is as before. -/
theorem addChild_spec (h : Heap) (P n : Ptr) (c : Node) (e : Element)
    (hown : h.owned n = false) (hc : h.node n = some c) (he : h.element P = some e) :
    ∃ h2 e2, Element.addChild h P n = some (h2, n) ∧
      h2.parentOf n = some (some P) ∧
      h2.element P = some e2 ∧
      e2.children = e.children ++ [n] ∧
      e2.children.getLast? = some n ∧
      e.children <+: e2.children ∧
      e2.children.length = e.children.length + 1 ∧
      (∀ q, q ≠ P → q ≠ n → h2.node q = h.node q) := by
  obtain ⟨h2, hcall, hnode⟩ := addChild_heap h P n c e hown hc he
  refine ⟨h2, ⟨if P = n then some P else e.parent, e.id, e.properties, e.children ++ [n]⟩,
    hcall, ?_, ?_, rfl, List.getLast?_concat _, List.prefix_append _ _, by simp, ?_⟩
  · unfold Heap.parentOf
    rw [hnode n]
    by_cases hPn : n = P
    · subst hPn
      simp [Node.parent]
    · simp [hPn, setParent_parent]
  · apply element_of_node
    rw [hnode P]
    simp
  · intro q hqP hqn
    rw [hnode q]
    simp [hqP, hqn]

/-- Witness of C9: in `adoptExample` the element `ElemY`, which has a parent and siblings, takes
the detached element at address 5 as its child. -/
theorem addChild_spec_witness :
    adoptExample.owned 5 = false ∧
    adoptExample.node 5 = some (.element ⟨none, 3, ⟨[]⟩, []⟩) ∧
    adoptExample.element 4 = some ⟨some 0, 2, ⟨[]⟩, []⟩ ∧
    ∃ h2 e2,
      Element.addChild adoptExample 4 5 = some (h2, 5) ∧
      h2.parentOf 5 = some (some 4) ∧
      h2.element 4 = some e2 ∧
      e2.children = (⟨some 0, 2, ⟨[]⟩, []⟩ : Element).children ++ [5] ∧
      e2.children.getLast? = some 5 ∧
      (⟨some 0, 2, ⟨[]⟩, []⟩ : Element).children <+: e2.children ∧
      e2.children.length = (⟨some 0, 2, ⟨[]⟩, []⟩ : Element).children.length + 1 ∧
      (∀ q, q ≠ 4 → q ≠ 5 → h2.node q = adoptExample.node q) :=
  ⟨by decide, rfl, rfl,
    addChild_spec adoptExample 4 5 (.element ⟨none, 3, ⟨[]⟩, []⟩) ⟨some 0, 2, ⟨[]⟩, []⟩
      (by decide) rfl rfl⟩

/-- C10: the parent invariant (every child of every element has that element as its parent)
holds in every heap built by `addChild` calls on detached nodes from nodes as their constructors
left them; and a call `P.addChild(n)` on a detached node `n` preserves the invariant of a heap
that has it. -/
theorem parent_invariant :
    (∀ h : Heap, Built h → ParentInvariant h) ∧
    (∀ (h : Heap) (P n : Ptr) (h2 : Heap) (r : Ptr), ParentInvariant h →
      h.parentOf n = some none → Element.addChild h P n = some (h2, r) →
      ParentInvariant h2) :=
  ⟨built_invariant, addChild_preserves⟩

/-- Witness of C10: the element of `attachExample` takes the text node as its child. -/
theorem parent_invariant_witness :
    Built attachExample ∧ ParentInvariant attachExample ∧
    attachExample.parentOf 1 = some none ∧
    Element.addChild attachExample 0 1 = some (attachedExample, 1) ∧
    ParentInvariant attachedExample :=
  ⟨Built.init _ (by decide), parent_invariant.1 _ (Built.init _ (by decide)), rfl, rfl,
    parent_invariant.2 attachExample 0 1 attachedExample 1
      (parent_invariant.1 _ (Built.init _ (by decide))) rfl rfl⟩

/-! ## Own declarations -/

theorem get_isSome_iff (l : PropertyList) (id : PropertyId) :
    (l.get id).isSome = true ↔ ∃ p ∈ l.m_properties, p.id = id := by
  have h := getLoop_none id l.m_properties 0
  unfold PropertyList.get
  cases hg : PropertyList.getLoop id l.m_properties 0 with
  | none =>
    have hall := h.1 hg
    simp only [Option.isSome_none, Bool.false_eq_true, false_iff]
    rintro ⟨p, hp, hid⟩
    exact hall p hp hid
  | some r =>
    simp only [Option.isSome_some, true_iff]
    by_contra hno
    have : PropertyList.getLoop id l.m_properties 0 = none :=
      h.2 (fun p hp hid => hno ⟨p, hp, hid⟩)
    rw [hg] at this
    simp at this

theorem get_after_set_isSome (l : PropertyList) (id : PropertyId) (value : String)
    (specificity : Int) : ((l.set id value specificity).get id).isSome = true := by
  rw [get_isSome_iff, set_eq_setList]
  show ∃ p ∈ setList ⟨id, value, specificity⟩ l.m_properties, p.id = id
  induction l.m_properties with
  | nil => exact ⟨⟨id, value, specificity⟩, by simp [setList], rfl⟩
  | cons q qs ih =>
    by_cases hq : q.id = id
    · refine ⟨overwrite q ⟨id, value, specificity⟩, by simp [setList, hq], ?_⟩
      rw [overwrite_id]
      exact hq
    · obtain ⟨p, hp, hid⟩ := ih
      exact ⟨p, by simp [setList, hq, hp], hid⟩

/-- C11: `has(id)` is true exactly when the own property list of the element holds an entry for
`id`, which is the case after any `set(id, ...)` on the element, whatever the value; `get(id)`
then returns the value of the entry that the list returns for `id`, and returns the empty string
when `has(id)` is false.  Both results are functions of the own property list alone: two
elements with the same property list give the same results, whatever their parent links. -/
theorem has_get_own :
    (∀ (e : Element) (id : PropertyId),
      e.has id = true ↔ ∃ p ∈ e.properties.m_properties, p.id = id) ∧
    (∀ (e : Element) (id : PropertyId) (value : String) (specificity : Int),
      (e.set id value specificity).has id = true) ∧
    (∀ (e : Element) (id : PropertyId), e.has id = true →
      ∃ i p, e.properties.get id = some (i, p) ∧ p.id = id ∧ e.get id = p.value) ∧
    (∀ (e : Element) (id : PropertyId), e.has id = false → e.get id = "") ∧
    (∀ (e e2 : Element) (id : PropertyId), e2.properties = e.properties →
      e2.has id = e.has id ∧ e2.get id = e.get id) := by
  refine ⟨?_, ?_, ?_, ?_, ?_⟩
  · intro e id
    exact get_isSome_iff e.properties id
  · intro e id value specificity
    exact get_after_set_isSome e.properties id value specificity
  · intro e id hhas
    unfold Element.has at hhas
    cases hg : e.properties.get id with
    | none => simp [hg] at hhas
    | some r =>
      obtain ⟨i, p⟩ := r
      obtain ⟨pre, post, _, _, hid, _⟩ := getLoop_some id e.properties.m_properties 0 i p hg
      exact ⟨i, p, rfl, hid, by simp [Element.get, hg]⟩
  · intro e id hhas
    unfold Element.has at hhas
    cases hg : e.properties.get id with
    | none => simp [Element.get, hg, EmptyString]
    | some r => simp [hg] at hhas
  · intro e e2 id hp
    simp [Element.has, Element.get, hp]

/-- Witness of C11: an element whose only declaration has the empty string as its value. -/
theorem has_get_own_witness :
    Element.has ⟨some 4, 0, ⟨[⟨3, "", 1⟩]⟩, []⟩ 3 = true ∧
    ∃ i p, (⟨some 4, 0, ⟨[⟨3, "", 1⟩]⟩, []⟩ : Element).properties.get 3 = some (i, p) ∧
      p.id = 3 ∧ Element.get ⟨some 4, 0, ⟨[⟨3, "", 1⟩]⟩, []⟩ 3 = p.value :=
  ⟨rfl, has_get_own.2.2.1 ⟨some 4, 0, ⟨[⟨3, "", 1⟩]⟩, []⟩ 3 rfl⟩

/-! ## Inherit and absence -/

theorem element_set (h : Heap) (a p : Ptr) (e : Element) (ha : a < h.length) :
    Heap.element (h.set a (.element e)) p = if p = a then some e else h.element p := by
  unfold Heap.element
  rw [node_set h a p _ ha]
  by_cases hp : p = a
  · simp [hp]
  · simp [hp]

theorem get_of_has_false (e : Element) (id : PropertyId) (h : e.has id = false) :
    e.get id = "" := by
  unfold Element.has at h
  cases hg : e.properties.get id with
  | none => simp [Element.get, hg, EmptyString]
  | some r => simp [hg] at h

theorem findLoop_inherit (h : Heap) (a : Ptr) (e1 e2 : Element) (id : PropertyId)
    (h1 : h.element a = some e1) (habs : e1.has id = false) (hpar : e2.parent = e1.parent)
    (hinh : e2.get id = "inherit") (fuel : Nat) :
    ∀ start : Option Ptr,
      Element.findLoop (h.set a (.element e2)) id fuel start =
        Element.findLoop h id fuel start := by
  have ha : a < h.length := node_lt h a _ (node_of_element h a e1 h1)
  have hg1 := get_of_has_false e1 id habs
  induction fuel with
  | zero =>
    intro start
    cases start <;> simp [Element.findLoop]
  | succ fuel ih =>
    intro start
    cases start with
    | none => simp [Element.findLoop]
    | some p =>
      rw [Element.findLoop, Element.findLoop, element_set h a p e2 ha]
      by_cases hp : p = a
      · subst hp
        simp only [if_true, h1, hinh, hg1, InheritString, ne_eq, not_true_eq_false, and_false,
          false_and, if_false, hpar]
        exact ih e1.parent
      · simp only [hp, if_false]
        cases h.element p with
        | none => rfl
        | some e => simp only [ih]

/-- C12: let the element at `a` hold no declaration for `id` in the heap `h`, and let the other
heap differ from `h` only in that element, which there has the same parent link and the own value
`inherit` for `id`.  Then `find(id)` called on any element gives the same result in both heaps,
and on an element with a finite chain of ancestors it returns a value in both. -/
theorem find_inherit_as_absent (h : Heap) (a : Ptr) (e1 e2 : Element) (id : PropertyId)
    (this : Ptr) (fuel : Nat) (h1 : h.element a = some e1) (habs : e1.has id = false)
    (hpar : e2.parent = e1.parent) (hinh : e2.get id = "inherit") :
    Element.find (h.set a (.element e2)) fuel this id = Element.find h fuel this id ∧
    (∀ es : List Element, ParentChain h (some this) es → es.length ≤ fuel →
      ∃ v, Element.find h fuel this id = some v ∧
        Element.find (h.set a (.element e2)) fuel this id = some v) := by
  have heq : Element.find (h.set a (.element e2)) fuel this id = Element.find h fuel this id :=
    findLoop_inherit h a e1 e2 id h1 habs hpar hinh fuel (some this)
  refine ⟨heq, ?_⟩
  intro es hc hf
  have hv := findLoop_chain h id es (some this) fuel hc hf
  exact ⟨_, hv, by rw [heq]; exact hv⟩

/-- Witness of C12: in the inheritance example the child `C` declares nothing for the property
5; giving it the declaration `inherit` leaves the result of `find` on the grandchild as it is. -/
theorem find_inherit_as_absent_witness :
    (inheritExample 5).element 1 = some ⟨some 0, 0, ⟨[]⟩, [2]⟩ ∧
    Element.has ⟨some 0, 0, ⟨[]⟩, [2]⟩ 5 = false ∧
    (Element.set ⟨some 0, 0, ⟨[]⟩, [2]⟩ 5 "inherit" 0).parent =
      (⟨some 0, 0, ⟨[]⟩, [2]⟩ : Element).parent ∧
    (Element.set ⟨some 0, 0, ⟨[]⟩, [2]⟩ 5 "inherit" 0).get 5 = "inherit" ∧
    (Element.find ((inheritExample 5).set 1
        (.element (Element.set ⟨some 0, 0, ⟨[]⟩, [2]⟩ 5 "inherit" 0))) 3 2 5 =
      Element.find (inheritExample 5) 3 2 5 ∧
    (∀ es : List Element, ParentChain (inheritExample 5) (some 2) es → es.length ≤ 3 →
      ∃ v, Element.find (inheritExample 5) 3 2 5 = some v ∧
        Element.find ((inheritExample 5).set 1
          (.element (Element.set ⟨some 0, 0, ⟨[]⟩, [2]⟩ 5 "inherit" 0))) 3 2 5 = some v)) :=
  ⟨rfl, rfl, rfl, by decide,
    find_inherit_as_absent (inheritExample 5) 1 ⟨some 0, 0, ⟨[]⟩, [2]⟩
      (Element.set ⟨some 0, 0, ⟨[]⟩, [2]⟩ 5 "inherit" 0) 5 2 3 rfl rfl rfl (by decide)⟩

/-! ## What the walk can return -/

theorem findLoop_ne_inherit (h : Heap) (id : PropertyId) (fuel : Nat) :
    ∀ (start : Option Ptr) (v : String),
      Element.findLoop h id fuel start = some v → v ≠ "inherit" := by
  induction fuel with
  | zero =>
    intro start v hv
    cases start with
    | none =>
      simp only [Element.findLoop, EmptyString, Option.some.injEq] at hv
      subst hv
      decide
    | some p => simp [Element.findLoop] at hv
  | succ fuel ih =>
    intro start v hv
    cases start with
    | none =>
      simp only [Element.findLoop, EmptyString, Option.some.injEq] at hv
      subst hv
      decide
    | some p =>
      rw [Element.findLoop] at hv
      cases he : h.element p with
      | none => simp [he] at hv
      | some e =>
        simp only [he] at hv
        by_cases hc : e.get id ≠ "" ∧ e.get id ≠ InheritString
        · rw [if_pos hc] at hv
          simp only [Option.some.injEq] at hv
          subst hv
          exact hc.2
        · rw [if_neg hc] at hv
          exact ih e.parent v hv

/-- C19: whatever `find(id)` returns, it is not the string `inherit`; and on an element whose own
value `get(id)` is neither empty nor `inherit`, `find(id)` returns that own value after
inspecting this one element, whatever the ancestors declare. -/
theorem find_never_inherit :
    (∀ (h : Heap) (fuel : Nat) (this : Ptr) (id : PropertyId) (v : String),
      Element.find h fuel this id = some v → v ≠ "inherit") ∧
    (∀ (h : Heap) (fuel : Nat) (this : Ptr) (id : PropertyId) (e : Element),
      h.element this = some e → e.get id ≠ "" → e.get id ≠ "inherit" →
      Element.find h (fuel + 1) this id = some (e.get id)) := by
  refine ⟨?_, ?_⟩
  · intro h fuel this id v hv
    exact findLoop_ne_inherit h id fuel (some this) v hv
  · intro h fuel this id e he h1 h2
    have hc : e.get id ≠ "" ∧ e.get id ≠ InheritString := ⟨h1, h2⟩
    unfold Element.find
    rw [Element.findLoop]
    simp only [he]
    rw [if_pos hc]

/-- Witness of C19: the walk from the grandchild of the inheritance example returns `black`, and
the root of that example returns its own value at once. -/
theorem find_never_inherit_witness :
    (Element.find (inheritExample 5) 3 2 5 = some "black" ∧ "black" ≠ "inherit") ∧
    ((inheritExample 5).element 0 = some ⟨none, 0, (PropertyList.mk []).set 5 "black" 0, [1]⟩ ∧
      Element.get ⟨none, 0, (PropertyList.mk []).set 5 "black" 0, [1]⟩ 5 ≠ "" ∧
      Element.get ⟨none, 0, (PropertyList.mk []).set 5 "black" 0, [1]⟩ 5 ≠ "inherit" ∧
      Element.find (inheritExample 5) (0 + 1) 0 5 =
        some (Element.get ⟨none, 0, (PropertyList.mk []).set 5 "black" 0, [1]⟩ 5)) :=
  ⟨⟨by decide, find_never_inherit.1 (inheritExample 5) 3 2 5 "black" (by decide)⟩,
    rfl, by decide, by decide,
    find_never_inherit.2 (inheritExample 5) 0 0 5
      ⟨none, 0, (PropertyList.mk []).set 5 "black" 0, [1]⟩ rfl (by decide) (by decide)⟩

/-! ## The frame of `set` -/

theorem getLoop_setList_other (c : Property) (id2 : PropertyId) (hne : id2 ≠ c.id)
    (ps : List Property) :
    ∀ i : Nat, PropertyList.getLoop id2 (setList c ps) i = PropertyList.getLoop id2 ps i := by
  have hc : ¬ c.id = id2 := fun e => hne e.symm
  induction ps with
  | nil => intro i; simp [setList, PropertyList.getLoop, hc]
  | cons p ps ih =>
    intro i
    by_cases hp : p.id = c.id
    · have h1 : ¬ p.id = id2 := fun e => hc (hp ▸ e)
      have h2 : ¬ (overwrite p c).id = id2 := by rw [overwrite_id]; exact h1
      simp only [setList, hp, if_true, PropertyList.getLoop]
      rw [if_neg h2, if_neg (hp ▸ h1)]
    · simp only [setList, hp, if_false, PropertyList.getLoop, ih]

theorem getElem_setList_other (c : Property) (ps : List Property) :
    ∀ (j : Nat) (p : Property), ps[j]? = some p → p.id ≠ c.id →
      (setList c ps)[j]? = some p := by
  induction ps with
  | nil => intro j p hj; simp at hj
  | cons q qs ih =>
    intro j p hj hp
    cases j with
    | zero =>
      simp only [List.getElem?_cons_zero, Option.some.injEq] at hj
      subst hj
      simp [setList, hp]
    | succ j =>
      simp only [List.getElem?_cons_succ] at hj
      by_cases hq : q.id = c.id
      · simp [setList, hq, hj]
      · simp [setList, hq, ih j p hj hp]

theorem ids_length (l : PropertyList) : l.ids.length = l.m_properties.length := by
  simp [PropertyList.ids]

theorem get_none_iff_ids (l : PropertyList) (id : PropertyId) :
    l.get id = none ↔ id ∉ l.ids := by
  unfold PropertyList.get PropertyList.ids
  rw [getLoop_none]
  simp only [List.mem_map, not_exists, not_and]

/-- C20: `set(id, value, specificity)` touches only the entry for `id`.  For every other id,
`get` returns the same entry at the same position before and after the call; the ids stored
before are a prefix of the ids stored after, and every stored property with another id stays at
its position; the length grows by one when `id` was absent and not at all otherwise; and when the
stored specificity for `id` is strictly greater than the incoming one, the whole list is
unchanged. -/
theorem set_frame (l : PropertyList) (id : PropertyId) (value : String) (specificity : Int) :
    (∀ id2 : PropertyId, id2 ≠ id → (l.set id value specificity).get id2 = l.get id2) ∧
    l.ids <+: (l.set id value specificity).ids ∧
    (∀ (j : Nat) (p : Property), l.m_properties[j]? = some p → p.id ≠ id →
      (l.set id value specificity).m_properties[j]? = some p) ∧
    (l.get id = none →
      (l.set id value specificity).m_properties.length = l.m_properties.length + 1) ∧
    (l.get id ≠ none →
      (l.set id value specificity).m_properties.length = l.m_properties.length) ∧
    (∀ (i : Nat) (p : Property), l.get id = some (i, p) → p.specificity > specificity →
      l.set id value specificity = l) := by
  refine ⟨?_, ids_set_grows l id value specificity, ?_, ?_, ?_, ?_⟩
  · intro id2 hne
    rw [set_eq_setList]
    exact getLoop_setList_other ⟨id, value, specificity⟩ id2 hne l.m_properties 0
  · intro j p hj hp
    rw [set_eq_setList]
    exact getElem_setList_other ⟨id, value, specificity⟩ l.m_properties j p hj hp
  · intro hnone
    have hmem := (get_none_iff_ids l id).1 hnone
    rw [← ids_length, ← ids_length, ids_set, if_neg hmem]
    simp
  · intro hsome
    have hmem : id ∈ l.ids := by
      by_contra hno
      exact hsome ((get_none_iff_ids l id).2 hno)
    rw [← ids_length, ← ids_length, ids_set, if_pos hmem]
  · intro i p hget hgt
    unfold PropertyList.set
    simp only [hget]
    rw [if_pos hgt]

/-- Witness of C20: a list with the ids 1 and 2; `set` for the id 2 at a lower specificity. -/
theorem set_frame_witness :
    PropertyList.get ⟨[⟨1, "a", 0⟩, ⟨2, "b", 5⟩]⟩ 2 = some (1, ⟨2, "b", 5⟩) ∧
    (⟨2, "b", 5⟩ : Property).specificity > 3 ∧
    PropertyList.set ⟨[⟨1, "a", 0⟩, ⟨2, "b", 5⟩]⟩ 2 "c" 3 = ⟨[⟨1, "a", 0⟩, ⟨2, "b", 5⟩]⟩ :=
  ⟨rfl, by decide,
    (set_frame ⟨[⟨1, "a", 0⟩, ⟨2, "b", 5⟩]⟩ 2 "c" 3).2.2.2.2.2 1 ⟨2, "b", 5⟩ rfl (by decide)⟩

/-! ## The nearest view box -/

theorem nearestViewBox_step {F L : Type} [OfNat F 0] [OfNat F 512] (ext : Collaborators F L)
    (h : Heap) (fuel : Nat) (this : Ptr) (e : Element) (parent : Ptr) (p : Element)
    (he : h.element this = some e) (hp : e.parent = some parent)
    (hpar : h.element parent = some p) (hne : p.id ≠ ext.Svg) :
    Element.nearestViewBox ext h (fuel + 1) this = Element.nearestViewBox ext h fuel parent := by
  rw [Element.nearestViewBox]
  simp only [he, hp, hpar, hne, if_false]

theorem parentChain_nil (h : Heap) (start : Option Ptr) (hc : ParentChain h start []) :
    start = none := by
  cases start with
  | none => rfl
  | some p => simp [ParentChain] at hc

theorem parentChain_cons (h : Heap) (start : Option Ptr) (p : Element) (es : List Element)
    (hc : ParentChain h start (p :: es)) :
    ∃ q, start = some q ∧ h.element q = some p ∧ ParentChain h p.parent es := by
  cases start with
  | none => simp [ParentChain] at hc
  | some q => exact ⟨q, rfl, hc.1, hc.2⟩

theorem nearestViewBox_chain_default {F L : Type} [OfNat F 0] [OfNat F 512]
    (ext : Collaborators F L) (h : Heap) (es : List Element) :
    ∀ (this : Ptr) (e : Element) (fuel : Nat), ParentChain h (some this) (e :: es) →
      (∀ a ∈ es, a.id ≠ ext.Svg) → es.length ≤ fuel →
      Element.nearestViewBox ext h fuel this = some ⟨0, 0, 512, 512⟩ := by
  induction es with
  | nil =>
    intro this e fuel hc _ _
    have hp := parentChain_nil h e.parent hc.2
    rw [Element.nearestViewBox]
    simp only [hc.1, hp]
  | cons p es ih =>
    intro this e fuel hc hno hf
    obtain ⟨q, hq, hqe, hrest⟩ := parentChain_cons h e.parent p es hc.2
    cases fuel with
    | zero => simp at hf
    | succ fuel =>
      rw [nearestViewBox_step ext h fuel this e q p hc.1 hq hqe (hno p (by simp))]
      exact ih q p fuel ⟨hqe, hrest⟩ (fun a ha => hno a (by simp [ha])) (by simpa using hf)

theorem nearestViewBox_chain_some {F L : Type} [OfNat F 0] [OfNat F 512]
    (ext : Collaborators F L) (h : Heap) (es : List Element) :
    ∀ (this : Ptr) (e : Element) (fuel : Nat), ParentChain h (some this) (e :: es) →
      es.length ≤ fuel → ∃ r, Element.nearestViewBox ext h fuel this = some r := by
  induction es with
  | nil =>
    intro this e fuel hc _
    have hp := parentChain_nil h e.parent hc.2
    rw [Element.nearestViewBox]
    simp only [hc.1, hp]
    exact ⟨_, rfl⟩
  | cons p es ih =>
    intro this e fuel hc hf
    obtain ⟨q, hq, hqe, hrest⟩ := parentChain_cons h e.parent p es hc.2
    by_cases hsvg : p.id = ext.Svg
    · rw [Element.nearestViewBox]
      simp only [hc.1, hq, hqe, hsvg, if_true]
      split
      · exact ⟨_, rfl⟩
      · exact ⟨_, rfl⟩
    · cases fuel with
      | zero => simp at hf
      | succ fuel =>
        rw [nearestViewBox_step ext h fuel this e q p hc.1 hq hqe hsvg]
        exact ih q p fuel ⟨hqe, hrest⟩ (by simpa using hf)

/-- C13: on an element without parent, `nearestViewBox()` returns the rectangle
`{0, 0, 512, 512}`, whatever the kind, the declared properties and the children of the element
(and without any recursive call). -/
theorem nearestViewBox_root {F L : Type} [OfNat F 0] [OfNat F 512] (ext : Collaborators F L)
    (h : Heap) (fuel : Nat) (this : Ptr) (e : Element)
    (he : h.element this = some e) (hp : e.parent = none) :
    Element.nearestViewBox ext h fuel this = some ⟨0, 0, 512, 512⟩ := by
  rw [Element.nearestViewBox]
  simp only [he, hp]

/-- Witness of C13: the root of `viewBoxExample`, which is of kind `Svg`, declares a view box and
has a child. -/
theorem nearestViewBox_root_witness :
    viewBoxExample.element 0 = some ⟨none, 7, ⟨[⟨9, "0 0 100 50", 0⟩]⟩, [1]⟩ ∧
    (⟨none, 7, ⟨[⟨9, "0 0 100 50", 0⟩]⟩, [1]⟩ : Element).parent = none ∧
    Element.nearestViewBox exampleCollaborators viewBoxExample 0 0 = some ⟨0, 0, 512, 512⟩ :=
  ⟨rfl, rfl,
    nearestViewBox_root exampleCollaborators viewBoxExample 0 0
      ⟨none, 7, ⟨[⟨9, "0 0 100 50", 0⟩]⟩, [1]⟩ rfl rfl⟩

/-- C14: on an element whose parent is of kind `Svg` and has its own `ViewBox` declaration,
`nearestViewBox()` returns the view box of the parent (without any recursive call).  The result
is the same for any other element, heap and fuel and for any other methods `x`, `y`, `width`,
`height` and length resolution, as long as the parent is the same element with the same view
box. -/
theorem nearestViewBox_declared {F L : Type} [OfNat F 0] [OfNat F 512] :
    (∀ (ext : Collaborators F L) (h : Heap) (fuel : Nat) (this : Ptr) (e : Element)
      (parent : Ptr) (p : Element),
      h.element this = some e → e.parent = some parent → h.element parent = some p →
      p.id = ext.Svg → p.has ext.ViewBox = true →
      Element.nearestViewBox ext h fuel this = some (ext.viewBox p)) ∧
    (∀ (ext ext2 : Collaborators F L) (h h2 : Heap) (fuel fuel2 : Nat) (this this2 : Ptr)
      (e e2 : Element) (parent parent2 : Ptr) (p : Element),
      h.element this = some e → e.parent = some parent → h.element parent = some p →
      h2.element this2 = some e2 → e2.parent = some parent2 → h2.element parent2 = some p →
      p.id = ext.Svg → p.has ext.ViewBox = true →
      ext2.Svg = ext.Svg → ext2.ViewBox = ext.ViewBox → ext2.viewBox p = ext.viewBox p →
      Element.nearestViewBox ext2 h2 fuel2 this2 = Element.nearestViewBox ext h fuel this) := by
  have key : ∀ (ext : Collaborators F L) (h : Heap) (fuel : Nat) (this : Ptr) (e : Element)
      (parent : Ptr) (p : Element),
      h.element this = some e → e.parent = some parent → h.element parent = some p →
      p.id = ext.Svg → p.has ext.ViewBox = true →
      Element.nearestViewBox ext h fuel this = some (ext.viewBox p) := by
    intro ext h fuel this e parent p he hp hpar hsvg hvb
    rw [Element.nearestViewBox]
    simp only [he, hp, hpar, hsvg, hvb, if_true]
  refine ⟨key, ?_⟩
  intro ext ext2 h h2 fuel fuel2 this this2 e e2 parent parent2 p he hp hpar he2 hp2 hpar2
    hsvg hvb hS hV hbox
  rw [key ext h fuel this e parent p he hp hpar hsvg hvb,
    key ext2 h2 fuel2 this2 e2 parent2 p he2 hp2 hpar2 (by rw [hS]; exact hsvg)
      (by rw [hV]; exact hvb), hbox]

/-- Witness of C14: the child of the root of `viewBoxExample`. -/
theorem nearestViewBox_declared_witness :
    viewBoxExample.element 1 = some ⟨some 0, 3, ⟨[]⟩, [2]⟩ ∧
    (⟨some 0, 3, ⟨[]⟩, [2]⟩ : Element).parent = some 0 ∧
    viewBoxExample.element 0 = some ⟨none, 7, ⟨[⟨9, "0 0 100 50", 0⟩]⟩, [1]⟩ ∧
    (⟨none, 7, ⟨[⟨9, "0 0 100 50", 0⟩]⟩, [1]⟩ : Element).id = exampleCollaborators.Svg ∧
    Element.has ⟨none, 7, ⟨[⟨9, "0 0 100 50", 0⟩]⟩, [1]⟩ exampleCollaborators.ViewBox = true ∧
    Element.nearestViewBox exampleCollaborators viewBoxExample 0 1 =
      some (exampleCollaborators.viewBox ⟨none, 7, ⟨[⟨9, "0 0 100 50", 0⟩]⟩, [1]⟩) :=
  ⟨rfl, rfl, rfl, rfl, rfl,
    nearestViewBox_declared.1 exampleCollaborators viewBoxExample 0 1 ⟨some 0, 3, ⟨[]⟩, [2]⟩ 0
      ⟨none, 7, ⟨[⟨9, "0 0 100 50", 0⟩]⟩, [1]⟩ rfl rfl rfl rfl rfl⟩

/-- C15: on an element whose parent exists and is not of kind `Svg`, `nearestViewBox()` is the
`nearestViewBox()` of the parent, reached by one recursive call; so an element with a finite
chain of ancestors none of which is of kind `Svg` gets the rectangle `{0, 0, 512, 512}` (given
fuel for one recursive call for each ancestor). -/
theorem nearestViewBox_recurse {F L : Type} [OfNat F 0] [OfNat F 512] :
    (∀ (ext : Collaborators F L) (h : Heap) (fuel : Nat) (this : Ptr) (e : Element)
      (parent : Ptr) (p : Element),
      h.element this = some e → e.parent = some parent → h.element parent = some p →
      p.id ≠ ext.Svg →
      Element.nearestViewBox ext h (fuel + 1) this = Element.nearestViewBox ext h fuel parent) ∧
    (∀ (ext : Collaborators F L) (h : Heap) (fuel : Nat) (this : Ptr) (e : Element)
      (es : List Element),
      ParentChain h (some this) (e :: es) → (∀ a ∈ es, a.id ≠ ext.Svg) → es.length ≤ fuel →
      Element.nearestViewBox ext h fuel this = some ⟨0, 0, 512, 512⟩) :=
  ⟨fun ext h fuel this e parent p he hp hpar hne =>
      nearestViewBox_step ext h fuel this e parent p he hp hpar hne,
    fun ext h fuel this e es hc hno hf =>
      nearestViewBox_chain_default ext h es this e fuel hc hno hf⟩

/-- Witness of C15: the grandchild of `viewBoxExample`, whose parent is not of kind `Svg`, takes
the view box that its parent takes from the root. -/
theorem nearestViewBox_recurse_witness :
    viewBoxExample.element 2 = some ⟨some 1, 4, ⟨[]⟩, []⟩ ∧
    (⟨some 1, 4, ⟨[]⟩, []⟩ : Element).parent = some 1 ∧
    viewBoxExample.element 1 = some ⟨some 0, 3, ⟨[]⟩, [2]⟩ ∧
    (⟨some 0, 3, ⟨[]⟩, [2]⟩ : Element).id ≠ exampleCollaborators.Svg ∧
    Element.nearestViewBox exampleCollaborators viewBoxExample (0 + 1) 2 =
      Element.nearestViewBox exampleCollaborators viewBoxExample 0 1 ∧
    Element.nearestViewBox exampleCollaborators viewBoxExample 0 1 = some ⟨0, 0, 100, 50⟩ :=
  ⟨rfl, rfl, rfl, by decide,
    nearestViewBox_recurse.1 exampleCollaborators viewBoxExample 0 2 ⟨some 1, 4, ⟨[]⟩, []⟩ 1
      ⟨some 0, 3, ⟨[]⟩, [2]⟩ rfl rfl rfl (by decide),
    by decide⟩

/-- C16: on an element whose parent is of kind `Svg` and has no `ViewBox` declaration,
`nearestViewBox()` returns the rectangle of the lengths `x`, `y`, `width` and `height` of the
parent, each resolved by the length context of the element itself: `x` and `width` on the width
axis, `y` and `height` on the height axis. -/
theorem nearestViewBox_synthesized {F L : Type} [OfNat F 0] [OfNat F 512]
    (ext : Collaborators F L) (h : Heap) (fuel : Nat) (this : Ptr) (e : Element)
    (parent : Ptr) (p : Element)
    (he : h.element this = some e) (hp : e.parent = some parent)
    (hpar : h.element parent = some p) (hsvg : p.id = ext.Svg)
    (hvb : p.has ext.ViewBox = false) :
    Element.nearestViewBox ext h fuel this =
      some ⟨ext.valueForLength h this (ext.x p) LengthMode.Width,
        ext.valueForLength h this (ext.y p) LengthMode.Height,
        ext.valueForLength h this (ext.width p) LengthMode.Width,
        ext.valueForLength h this (ext.height p) LengthMode.Height⟩ := by
  rw [Element.nearestViewBox]
  simp only [he, hp, hpar, hsvg, hvb, if_true, Bool.false_eq_true, if_false]

/-- Witness of C16: the child of the root of `viewportExample`. -/
theorem nearestViewBox_synthesized_witness :
    viewportExample.element 1 = some ⟨some 0, 3, ⟨[]⟩, []⟩ ∧
    (⟨some 0, 3, ⟨[]⟩, []⟩ : Element).parent = some 0 ∧
    viewportExample.element 0 = some ⟨none, 7, ⟨[]⟩, [1]⟩ ∧
    (⟨none, 7, ⟨[]⟩, [1]⟩ : Element).id = exampleCollaborators.Svg ∧
    Element.has ⟨none, 7, ⟨[]⟩, [1]⟩ exampleCollaborators.ViewBox = false ∧
    Element.nearestViewBox exampleCollaborators viewportExample 0 1 = some ⟨1, 2, 30, 40⟩ :=
  ⟨rfl, rfl, rfl, rfl, rfl,
    nearestViewBox_synthesized exampleCollaborators viewportExample 0 1 ⟨some 0, 3, ⟨[]⟩, []⟩ 0
      ⟨none, 7, ⟨[]⟩, [1]⟩ rfl rfl rfl rfl rfl⟩

/-- C17: when the parent links from the element at `this` visit the elements `es` and end at a
parentless root (so the depth of the element is the length of `es` less one), `find(id)` returns
after inspecting at most as many elements as `es` holds, and `nearestViewBox()` returns after at
most as many recursive calls as the depth. -/
theorem walks_terminate {F L : Type} [OfNat F 0] [OfNat F 512] (ext : Collaborators F L)
    (h : Heap) (this : Ptr) (id : PropertyId) (es : List Element)
    (hc : ParentChain h (some this) es) :
    (∃ v, Element.find h es.length this id = some v) ∧
    (∃ r, Element.nearestViewBox ext h (es.length - 1) this = some r) := by
  refine ⟨⟨_, findLoop_chain h id es (some this) es.length hc (le_refl _)⟩, ?_⟩
  cases es with
  | nil => simp [ParentChain] at hc
  | cons e es =>
    exact nearestViewBox_chain_some ext h es this e _ hc (by simp)

/-- Witness of C17: the grandchild of `viewBoxExample`, of depth 2. -/
theorem walks_terminate_witness :
    ParentChain viewBoxExample (some 2)
      [⟨some 1, 4, ⟨[]⟩, []⟩, ⟨some 0, 3, ⟨[]⟩, [2]⟩,
        ⟨none, 7, ⟨[⟨9, "0 0 100 50", 0⟩]⟩, [1]⟩] ∧
    (∃ v, Element.find viewBoxExample 3 2 9 = some v) ∧
    (∃ r, Element.nearestViewBox exampleCollaborators viewBoxExample (3 - 1) 2 = some r) :=
  ⟨⟨rfl, rfl, rfl, trivial⟩,
    walks_terminate exampleCollaborators viewBoxExample 2 9
      [⟨some 1, 4, ⟨[]⟩, []⟩, ⟨some 0, 3, ⟨[]⟩, [2]⟩,
        ⟨none, 7, ⟨[⟨9, "0 0 100 50", 0⟩]⟩, [1]⟩] ⟨rfl, rfl, rfl, trivial⟩⟩

/-! ## Next and previous sibling are inverse -/

theorem previousSibling_scan (h : Heap) (this : Ptr) (e : Element) (parent : Ptr) (p : Element)
    (pre post : List Ptr) (he : h.element this = some e) (hp : e.parent = some parent)
    (hpar : h.element parent = some p) (hch : p.children = pre ++ this :: post)
    (hnot : this ∉ pre) (hvalid : ∀ c ∈ pre, (h.node c).isSome) :
    Element.previousSibling h this = some ((pre.filter h.nonText).getLast?) := by
  unfold Element.previousSibling
  simp only [he, hp, hpar, hch]
  rw [previousSiblingLoop_scan h this e he post pre none hnot hvalid]
  cases (List.filter h.nonText pre).getLast? <;> rfl

theorem nextSibling_scan (h : Heap) (this : Ptr) (e : Element) (parent : Ptr) (p : Element)
    (pre post : List Ptr) (he : h.element this = some e) (hp : e.parent = some parent)
    (hpar : h.element parent = some p) (hch : p.children = pre ++ this :: post)
    (hnot : this ∉ post) (hvalid : ∀ c ∈ post, (h.node c).isSome) :
    Element.nextSibling h this = some ((post.filter h.nonText).head?) := by
  unfold Element.nextSibling
  simp only [he, hp, hpar, hch]
  rw [nextSiblingLoop_eq, List.reverse_append, List.reverse_cons, List.append_assoc,
    List.singleton_append,
    previousSiblingLoop_scan h this e he pre.reverse post.reverse none
      (by simpa using hnot) (by simpa using hvalid),
    List.filter_reverse, List.getLast?_reverse]
  cases (List.filter h.nonText post).head? <;> rfl

theorem siblingLoop_absent (h : Heap) (this : Ptr) (nodes : List Ptr) (hnot : this ∉ nodes) :
    ∀ (element : Option Ptr) (r : Ptr),
      Element.previousSiblingLoop h this nodes element ≠ some (some r) := by
  induction nodes with
  | nil => intro element r; simp [Element.previousSiblingLoop]
  | cons c nodes ih =>
    intro element r
    have hc : ¬ c = this := fun e => hnot (by simp [e])
    have hnot2 : this ∉ nodes := fun hm => hnot (by simp [hm])
    rw [Element.previousSiblingLoop]
    cases h.node c with
    | none => simp
    | some n =>
      simp only [hc, if_false]
      split
      · exact ih hnot2 element r
      · exact ih hnot2 (some c) r

theorem nonText_iff_element (h : Heap) (c : Ptr) :
    h.nonText c = true ↔ ∃ e, h.element c = some e := by
  unfold Heap.nonText Heap.element
  cases h.node c with
  | none => simp
  | some n => cases n <;> simp [Node.isText]

theorem parentOf_element (h : Heap) (c : Ptr) (e : Element) (he : h.element c = some e) :
    h.parentOf c = some e.parent := by
  unfold Heap.parentOf
  rw [node_of_element h c e he]
  rfl

theorem node_isSome_of_parentOf (h : Heap) (c : Ptr) (x : Option Ptr)
    (hx : h.parentOf c = some x) : (h.node c).isSome := by
  unfold Heap.parentOf at hx
  cases hn : h.node c with
  | none => simp [hn] at hx
  | some n => rfl

theorem head_filter_split {α : Type} (f : α → Bool) (l : List α) (y : α)
    (hy : (l.filter f).head? = some y) :
    ∃ l1 l2, l = l1 ++ y :: l2 ∧ f y = true ∧ ∀ c ∈ l1, f c = false := by
  induction l with
  | nil => simp at hy
  | cons c l ih =>
    cases hc : f c with
    | true =>
      rw [List.filter_cons_of_pos hc] at hy
      simp only [List.head?_cons, Option.some.injEq] at hy
      subst hy
      exact ⟨[], l, rfl, hc, by simp⟩
    | false =>
      rw [List.filter_cons_of_neg (by simp [hc])] at hy
      obtain ⟨l1, l2, hl, hfy, hall⟩ := ih hy
      refine ⟨c :: l1, l2, by rw [hl]; rfl, hfy, ?_⟩
      intro x hx
      rcases List.mem_cons.1 hx with rfl | hx
      · exact hc
      · exact hall x hx

theorem last_filter_split {α : Type} (f : α → Bool) (l : List α) (x : α)
    (hx : (l.filter f).getLast? = some x) :
    ∃ l1 l2, l = l1 ++ x :: l2 ∧ f x = true ∧ ∀ c ∈ l2, f c = false := by
  have hrev : (l.reverse.filter f).head? = some x := by
    rw [List.filter_reverse, List.head?_reverse]
    exact hx
  obtain ⟨l1, l2, hl, hfx, hall⟩ := head_filter_split f l.reverse x hrev
  refine ⟨l2.reverse, l1.reverse, ?_, hfx, fun c hc => hall c (by simpa using hc)⟩
  have := congrArg List.reverse hl
  simpa using this

theorem filter_none {α : Type} (f : α → Bool) (m : List α) (hm : ∀ c ∈ m, f c = false) :
    m.filter f = [] := by
  rw [List.filter_eq_nil_iff]
  intro c hc
  simp [hm c hc]

theorem children_valid (h : Heap) (hwf : WellFormed h) (P : Ptr) (p : Element)
    (hP : h.element P = some p) : ∀ c ∈ p.children, (h.node c).isSome :=
  fun c hc => node_isSome_of_parentOf h c _ ((hwf P p hP).2 c hc)

theorem nextSibling_pair (h : Heap) (hwf : WellFormed h) (X Y : Ptr) :
    Element.nextSibling h X = some (some Y) ↔ SiblingPair h X Y := by
  constructor
  · intro hres
    cases hX : h.element X with
    | none => simp [Element.nextSibling, hX] at hres
    | some e =>
      cases hp : e.parent with
      | none => simp [Element.nextSibling, hX, hp] at hres
      | some P =>
        cases hP : h.element P with
        | none => simp [Element.nextSibling, hX, hp, hP] at hres
        | some p =>
          have hvalid := children_valid h hwf P p hP
          by_cases hmem : X ∈ p.children
          · obtain ⟨pre, post, hch⟩ := List.append_of_mem hmem
            have hnd := (hwf P p hP).1
            rw [hch] at hnd hvalid
            have hnotpost : X ∉ post := by
              have := (List.nodup_append.1 hnd).2.1
              exact (List.nodup_cons.1 this).1
            rw [nextSibling_scan h X e P p pre post hX hp hP hch hnotpost
              (fun c hc => hvalid c (by simp [hc]))] at hres
            obtain ⟨m, b, hpost, hfy, hall⟩ :=
              head_filter_split h.nonText post Y (by simpa using hres)
            exact ⟨P, p, pre, m, b, hP, by rw [hch, hpost],
              (nonText_iff_element h X).2 ⟨e, hX⟩, hfy, hall⟩
          · exfalso
            unfold Element.nextSibling at hres
            simp only [hX, hp, hP] at hres
            rw [nextSiblingLoop_eq] at hres
            exact siblingLoop_absent h X p.children.reverse (by simpa using hmem) none Y hres
  · rintro ⟨P, p, a, m, b, hP, hch, hfx, hfy, hall⟩
    obtain ⟨e, hX⟩ := (nonText_iff_element h X).1 hfx
    have hwfP := hwf P p hP
    have hvalid := children_valid h hwf P p hP
    have hpar := hwfP.2 X (by rw [hch]; simp)
    rw [parentOf_element h X e hX] at hpar
    have hp : e.parent = some P := Option.some.inj hpar
    have hnd := hwfP.1
    rw [hch] at hnd hvalid
    have hnot : X ∉ m ++ Y :: b := by
      have := (List.nodup_append.1 hnd).2.1
      exact (List.nodup_cons.1 this).1
    rw [nextSibling_scan h X e P p a (m ++ Y :: b) hX hp hP hch hnot
      (fun c hc => hvalid c (by simp only [List.mem_append, List.mem_cons] at hc ⊢; tauto))]
    rw [List.filter_append, filter_none h.nonText m hall, List.filter_cons_of_pos hfy]
    rfl

theorem previousSibling_pair (h : Heap) (hwf : WellFormed h) (X Y : Ptr) :
    Element.previousSibling h Y = some (some X) ↔ SiblingPair h X Y := by
  constructor
  · intro hres
    cases hY : h.element Y with
    | none => simp [Element.previousSibling, hY] at hres
    | some e =>
      cases hp : e.parent with
      | none => simp [Element.previousSibling, hY, hp] at hres
      | some P =>
        cases hP : h.element P with
        | none => simp [Element.previousSibling, hY, hp, hP] at hres
        | some p =>
          have hvalid := children_valid h hwf P p hP
          by_cases hmem : Y ∈ p.children
          · obtain ⟨pre, post, hch⟩ := List.append_of_mem hmem
            have hnd := (hwf P p hP).1
            rw [hch] at hnd hvalid
            have hnotpre : Y ∉ pre := by
              intro hin
              have hdis := (List.nodup_append.1 hnd).2.2
              exact hdis hin (by simp)
            rw [previousSibling_scan h Y e P p pre post hY hp hP hch hnotpre
              (fun c hc => hvalid c (by simp [hc]))] at hres
            obtain ⟨a, m, hpre, hfx, hall⟩ :=
              last_filter_split h.nonText pre X (by simpa using hres)
            exact ⟨P, p, a, m, post, hP, by rw [hch, hpre]; simp, hfx,
              (nonText_iff_element h Y).2 ⟨e, hY⟩, hall⟩
          · exfalso
            unfold Element.previousSibling at hres
            simp only [hY, hp, hP] at hres
            exact siblingLoop_absent h Y p.children hmem none X hres
  · rintro ⟨P, p, a, m, b, hP, hch, hfx, hfy, hall⟩
    obtain ⟨e, hY⟩ := (nonText_iff_element h Y).1 hfy
    have hwfP := hwf P p hP
    have hvalid := children_valid h hwf P p hP
    have hpar := hwfP.2 Y (by rw [hch]; simp)
    rw [parentOf_element h Y e hY] at hpar
    have hp : e.parent = some P := Option.some.inj hpar
    have hnd := hwfP.1
    have hch2 : p.children = (a ++ X :: m) ++ Y :: b := by rw [hch]; simp
    rw [hch2] at hnd hvalid
    have hnot : Y ∉ a ++ X :: m := by
      intro hin
      have hdis := (List.nodup_append.1 hnd).2.2
      exact hdis hin (by simp)
    rw [previousSibling_scan h Y e P p (a ++ X :: m) b hY hp hP hch2 hnot
      (fun c hc => hvalid c (List.mem_append_left _ hc))]
    rw [List.filter_append, List.filter_cons_of_pos hfx, filter_none h.nonText m hall,
      List.getLast?_concat]

/-- C18: in a heap where every child occurs once in the child sequence of its parent and has
that parent as its parent link, `X.nextSibling()` returns `Y` if and only if
`Y.previousSibling()` returns `X`. -/
theorem siblings_inverse (h : Heap) (hwf : WellFormed h) (X Y : Ptr) :
    Element.nextSibling h X = some (some Y) ↔ Element.previousSibling h Y = some (some X) :=
  (nextSibling_pair h hwf X Y).trans (previousSibling_pair h hwf X Y).symm

theorem siblingExample_wellFormed : WellFormed siblingExample := by
  intro P e he
  rcases P with _ | _ | _ | _ | _ | P
  · have : e = ⟨none, 0, ⟨[]⟩, [1, 2, 3, 4]⟩ := (Option.some.inj he).symm
    subst this
    exact ⟨by decide, by decide⟩
  · simp [siblingExample, Heap.element, Heap.node] at he
  · have : e = ⟨some 0, 1, ⟨[]⟩, []⟩ := (Option.some.inj he).symm
    subst this
    exact ⟨by decide, by decide⟩
  · simp [siblingExample, Heap.element, Heap.node] at he
  · have : e = ⟨some 0, 2, ⟨[]⟩, []⟩ := (Option.some.inj he).symm
    subst this
    exact ⟨by decide, by decide⟩
  · simp [siblingExample, Heap.element, Heap.node] at he

/-- Witness of C18: `ElemX` and `ElemY` of the sibling example. -/
theorem siblings_inverse_witness :
    WellFormed siblingExample ∧
    Element.nextSibling siblingExample 2 = some (some 4) ∧
    Element.previousSibling siblingExample 4 = some (some 2) :=
  ⟨siblingExample_wellFormed, by decide,
    (siblings_inverse siblingExample siblingExample_wellFormed 2 4).1 (by decide)⟩

end lunasvg
